import Mathlib

/-!
# Verification of `eslint-plugin-simple-key-sort` (src/index.js)

A shallow embedding of the rule implementation in `src/index.js`:
the comparator family (`naturalCompare`, `isValidOrders`, `makeComparator`),
the name extractor (`getPropertyName`), the group segmenter
(`hasBlankLineBetween`, `splitIntoGroups`), the violation detector
(`areSorted`, the first-violation scan) and the fix planner (the stable
sort with null-named entries last, and the span/replacement plan).

Modelling conventions:
* JavaScript strings are modelled as Lean `String`/`List Char`; relational
  operators (`<`, `<=`) on JS strings compare UTF-16 code units
  lexicographically, which for the analysed key names (Basic Multilingual
  Plane, in practice ASCII) coincides with code-point comparison on
  `List Char`.
* `localeCompare` with options numeric plus caseFirst upper is modelled by
  ICU root-locale collation restricted to ASCII input: space, punctuation
  and symbols collate first (in the CLDR root order, which is not
  code-point order), then maximal digit runs as single numeric elements,
  then letters by their case-folded code point, and the case level
  (uppercase first) breaks full primary ties.
* `Array.prototype.sort` (stable since ES2019) applied with a consistent
  comparator is modelled by `List.insertionSort`, a stable sort.
* machine numbers that appear (line numbers, ranges) are `Nat`; comparator
  results are `Int`.
-/

/-- `Ordering.then` sends eq-eq to eq and nothing else. -/
theorem ordThen_eq_eq {o₁ o₂ : Ordering} :
    o₁.then o₂ = .eq ↔ o₁ = .eq ∧ o₂ = .eq := by
  cases o₁ <;> simp [Ordering.then]

/-- Decomposition of `Ordering.then` producing `lt`. -/
theorem ordThen_eq_lt {o₁ o₂ : Ordering} :
    o₁.then o₂ = .lt ↔ o₁ = .lt ∨ (o₁ = .eq ∧ o₂ = .lt) := by
  cases o₁ <;> simp [Ordering.then]

/-- `Ordering.swap` distributes over `Ordering.then`. -/
theorem ordThen_swap (o₁ o₂ : Ordering) :
    (o₁.then o₂).swap = o₁.swap.then o₂.swap := by
  cases o₁ <;> rfl

/-- `Ordering.then` is associative. -/
theorem ordThen_assoc (a b c : Ordering) :
    (a.then b).then c = a.then (b.then c) := by
  cases a <;> rfl

/-- Three-way comparison of naturals, the building block of all
lexicographic comparisons used in the model. -/
def cmpNat (a b : Nat) : Ordering :=
  if a < b then .lt else if b < a then .gt else .eq

theorem cmpNat_eq_iff (a b : Nat) : cmpNat a b = .eq ↔ a = b := by
  unfold cmpNat
  split_ifs <;> simp <;> omega

theorem cmpNat_swap (a b : Nat) : cmpNat a b = (cmpNat b a).swap := by
  unfold cmpNat
  split_ifs <;> first | rfl | omega

theorem cmpNat_lt_iff (a b : Nat) : cmpNat a b = .lt ↔ a < b := by
  unfold cmpNat
  split_ifs <;> simp <;> omega

theorem cmpNat_lt_trans {a b c : Nat} (h1 : cmpNat a b = .lt)
    (h2 : cmpNat b c = .lt) : cmpNat a c = .lt := by
  rw [cmpNat_lt_iff] at *
  omega

/-- Three-way comparison of pairs of naturals, lexicographically. -/
def cmpPair (a b : Nat × Nat) : Ordering :=
  (cmpNat a.1 b.1).then (cmpNat a.2 b.2)

theorem cmpPair_eq_iff (a b : Nat × Nat) : cmpPair a b = .eq ↔ a = b := by
  unfold cmpPair
  rw [ordThen_eq_eq, cmpNat_eq_iff, cmpNat_eq_iff, Prod.ext_iff]

theorem cmpPair_swap (a b : Nat × Nat) : cmpPair a b = (cmpPair b a).swap := by
  unfold cmpPair
  rw [ordThen_swap, ← cmpNat_swap, ← cmpNat_swap]

theorem cmpPair_lt_trans {a b c : Nat × Nat} (h1 : cmpPair a b = .lt)
    (h2 : cmpPair b c = .lt) : cmpPair a c = .lt := by
  unfold cmpPair at *
  rw [ordThen_eq_lt] at h1 h2 ⊢
  rcases h1 with h1 | ⟨h1e, h1s⟩ <;> rcases h2 with h2 | ⟨h2e, h2s⟩
  · exact Or.inl (cmpNat_lt_trans h1 h2)
  · rw [cmpNat_eq_iff] at h2e
    exact Or.inl (by rw [← h2e]; exact h1)
  · rw [cmpNat_eq_iff] at h1e
    exact Or.inl (by rw [h1e]; exact h2)
  · rw [cmpNat_eq_iff] at h1e h2e
    exact Or.inr ⟨by rw [h1e, h2e, cmpNat_eq_iff], cmpNat_lt_trans h1s h2s⟩

/-- Lexicographic three-way comparison of lists given an element
comparison; a strict prefix compares less than the longer list. -/
def cmpList (c : α → α → Ordering) : List α → List α → Ordering
  | [], [] => .eq
  | [], _ :: _ => .lt
  | _ :: _, [] => .gt
  | a :: as, b :: bs => (c a b).then (cmpList c as bs)

theorem cmpList_eq_iff {c : α → α → Ordering}
    (hc : ∀ a b, c a b = .eq ↔ a = b) :
    ∀ xs ys, cmpList c xs ys = .eq ↔ xs = ys
  | [], [] => by simp [cmpList]
  | [], _ :: _ => by simp [cmpList]
  | _ :: _, [] => by simp [cmpList]
  | a :: as, b :: bs => by
    simp only [cmpList]
    rw [ordThen_eq_eq, hc, cmpList_eq_iff hc as bs, List.cons.injEq]

theorem cmpList_swap {c : α → α → Ordering}
    (hc : ∀ a b, c a b = (c b a).swap) :
    ∀ xs ys, cmpList c xs ys = (cmpList c ys xs).swap
  | [], [] => rfl
  | [], _ :: _ => rfl
  | _ :: _, [] => rfl
  | a :: as, b :: bs => by
    simp only [cmpList]
    rw [ordThen_swap, ← hc, ← cmpList_swap hc as bs]

theorem cmpList_lt_trans {c : α → α → Ordering}
    (he : ∀ a b, c a b = .eq ↔ a = b)
    (ht : ∀ {a b d}, c a b = .lt → c b d = .lt → c a d = .lt) :
    ∀ {xs ys zs}, cmpList c xs ys = .lt → cmpList c ys zs = .lt →
      cmpList c xs zs = .lt := by
  intro xs
  induction xs with
  | nil =>
    intro ys zs h1 h2
    cases ys with
    | nil => exact h2
    | cons b bs =>
      cases zs with
      | nil => simp [cmpList] at h2
      | cons d ds => rfl
  | cons a as ih =>
    intro ys zs h1 h2
    cases ys with
    | nil => simp [cmpList] at h1
    | cons b bs =>
      cases zs with
      | nil => simp [cmpList] at h2
      | cons d ds =>
        simp only [cmpList] at h1 h2 ⊢
        rw [ordThen_eq_lt] at h1 h2 ⊢
        rcases h1 with h1 | ⟨h1e, h1s⟩ <;> rcases h2 with h2 | ⟨h2e, h2s⟩
        · exact Or.inl (ht h1 h2)
        · rw [he] at h2e
          exact Or.inl (by rw [← h2e]; exact h1)
        · rw [he] at h1e
          exact Or.inl (by rw [h1e]; exact h2)
        · rw [he] at h1e h2e
          exact Or.inr ⟨by rw [h1e, h2e, he], ih h1s h2s⟩

/-- Convert a three-way `Ordering` into the `-1 / 0 / 1` convention used by
JavaScript comparators. -/
def ordToInt : Ordering → Int
  | .lt => -1
  | .eq => 0
  | .gt => 1

theorem ordToInt_nonpos (o : Ordering) : ordToInt o ≤ 0 ↔ o ≠ .gt := by
  cases o <;> simp [ordToInt]

theorem ordToInt_swap (o : Ordering) : ordToInt o.swap = -ordToInt o := by
  cases o <;> rfl

-- ─── JavaScript string primitives ───────────────────────────────────────────

/-- The code units of a JS string (code points of the Lean chars; identical
for Basic-Multilingual-Plane strings, which key names are). -/
def codeUnits (s : String) : List Nat := s.data.map Char.toNat

/-- Three-way comparison underlying the JS relational operators `<`, `<=`
on strings: lexicographic comparison of code units. -/
def jsCompare (a b : String) : Ordering := cmpList cmpNat (codeUnits a) (codeUnits b)

/-- JS `a < b` on strings. -/
def jsLt (a b : String) : Bool := decide (jsCompare a b = .lt)

/-- JS `a <= b` on strings (the negation of `b < a`). -/
def jsLe (a b : String) : Bool := !jsLt b a

/-- JS `String.prototype.toLowerCase`, restricted to its ASCII action
(`A`–`Z` map to `a`–`z`), which covers every analysed key name. -/
def jsToLower (s : String) : String := ⟨s.data.map Char.toLower⟩

theorem jsCompare_swap (a b : String) : jsCompare a b = (jsCompare b a).swap :=
  cmpList_swap cmpNat_swap _ _

theorem jsCompare_eq_iff (a b : String) :
    jsCompare a b = .eq ↔ codeUnits a = codeUnits b :=
  cmpList_eq_iff cmpNat_eq_iff _ _

theorem charToNat_inj {a b : Char} (h : a.toNat = b.toNat) : a = b := by
  rw [← Char.ofNat_toNat a, ← Char.ofNat_toNat b, h]

theorem codeUnits_inj {a b : String} (h : codeUnits a = codeUnits b) : a = b := by
  rcases a with ⟨da⟩
  rcases b with ⟨db⟩
  unfold codeUnits at h
  have hd : da = db :=
    List.map_injective_iff.mpr (fun x y hxy => charToNat_inj hxy) h
  rw [hd]

theorem jsCompare_lt_trans {a b c : String} (h1 : jsCompare a b = .lt)
    (h2 : jsCompare b c = .lt) : jsCompare a c = .lt :=
  cmpList_lt_trans cmpNat_eq_iff cmpNat_lt_trans h1 h2

theorem jsLe_eq_isLE (a b : String) : jsLe a b = (jsCompare a b).isLE := by
  unfold jsLe jsLt
  rw [jsCompare_swap b a]
  cases jsCompare a b <;> rfl

-- ─── Natural comparison model (ICU root collation, ASCII scope) ─────────────

/-- A maximal run of a string: consecutive ASCII digits or a consecutive
stretch of other characters. -/
inductive Run where
  | num (digits : List Char)
  | str (chars : List Char)
deriving DecidableEq

/-- ASCII digit test. -/
def isDigitCh (c : Char) : Bool := 48 ≤ c.toNat && c.toNat ≤ 57

/-- ASCII uppercase test. -/
def isAsciiUpper (c : Char) : Bool := 65 ≤ c.toNat && c.toNat ≤ 90

/-- ASCII lowercase test. -/
def isAsciiLower (c : Char) : Bool := 97 ≤ c.toNat && c.toNat ≤ 122

/-- Characters on which numeric ICU root collation and the raw code-point
run comparison coincide: ASCII lowercase letters and digits (no case
folding, no punctuation reordering). -/
def isLowerOrDigit (c : Char) : Bool := isAsciiLower c || isDigitCh c

/-- Split a string into maximal alternating digit / non-digit runs. -/
def splitRuns : List Char → List Run
  | [] => []
  | c :: cs =>
    match splitRuns cs with
    | Run.num ds :: rest =>
      if isDigitCh c then Run.num (c :: ds) :: rest
      else Run.str [c] :: Run.num ds :: rest
    | Run.str ss :: rest =>
      if isDigitCh c then Run.num [c] :: Run.str ss :: rest
      else Run.str (c :: ss) :: rest
    | [] => if isDigitCh c then [Run.num [c]] else [Run.str [c]]

/-- Numeric value of a digit run. -/
def digitsVal (ds : List Char) : Nat :=
  ds.foldl (fun acc c => acc * 10 + (c.toNat - 48)) 0

/-- Primary rank of the ASCII space, punctuation and symbol characters in
the CLDR root collation (the order of the root collation chart, which is
not code-point order): space, then the punctuation block underscore,
hyphen, comma, semicolon, colon, exclamation mark, question mark, full
stop, apostrophe, quotation mark, parentheses, square brackets, curly
brackets, commercial at, asterisk, solidus, reverse solidus, ampersand,
number sign, percent sign, then the symbol block grave accent, circumflex,
plus sign, less-than, equals, greater-than, vertical line, tilde, then the
dollar sign; every such character sorts before every digit and letter.
`none` for digits, letters and everything outside this set. The code
points below, in rank order. -/
def punctCodes : List Nat :=
  [32, 95, 45, 44, 59, 58, 33, 63, 46, 39, 34, 40, 41, 91, 93, 123, 125,
   64, 42, 47, 92, 38, 35, 37, 96, 94, 43, 60, 61, 62, 124, 126, 36]

def asciiPunctRank (n : Nat) : Option Nat :=
  if n ∈ punctCodes then some (punctCodes.indexOf n) else none

/-- Primary collation element of a non-digit character: punctuation,
symbols and space carry tag 1 (before numeric elements, as in ICU root
order punctuation < digits), every other character its case-folded code
point under tag 3 (after numeric elements, as in ICU root order
digits < letters). -/
def chElem (c : Char) : Nat × Nat :=
  match asciiPunctRank c.toNat with
  | some r => (1, r)
  | none => (3, (Char.toLower c).toNat)

/-- Primary collation elements of a run sequence: a digit run becomes one
numeric element (tag 2), other characters their elements. -/
def flattenRuns : List Run → List (Nat × Nat)
  | [] => []
  | Run.num ds :: rest => (2, digitsVal ds) :: flattenRuns rest
  | Run.str cs :: rest => cs.map chElem ++ flattenRuns rest

/-- Case-level key: one element per cased letter, uppercase (0) before
lowercase (1) — the `caseFirst: "upper"` convention. -/
def caseBits : List Char → List (Nat × Nat)
  | [] => []
  | c :: cs =>
    if isAsciiUpper c then (3, 0) :: caseBits cs
    else if isAsciiLower c then (3, 1) :: caseBits cs
    else caseBits cs

/-- Full collation key: primary elements, then a separator element `(0,0)`
smaller than every primary element (so a primary strict prefix sorts
first), then the case level. -/
def natKey (s : List Char) : List (Nat × Nat) :=
  flattenRuns (splitRuns s) ++ (0, 0) :: caseBits s

/-- Three-way result of the modelled `localeCompare` with options
`numeric` and `caseFirst: "upper"` (ICU root locale, ASCII scope). -/
def naturalCompareO (a b : String) : Ordering :=
  cmpList cmpPair (natKey a.data) (natKey b.data)

/-- `naturalCompare` from src/index.js:
`a.localeCompare(b, undefined, ...)` with numeric and uppercase-first
options, returning the usual `-1 / 0 / 1`. -/
def naturalCompare (a b : String) : Int := ordToInt (naturalCompareO a b)

theorem naturalCompareO_swap (a b : String) :
    naturalCompareO a b = (naturalCompareO b a).swap :=
  cmpList_swap cmpPair_swap _ _

theorem naturalCompareO_eq_iff (a b : String) :
    naturalCompareO a b = .eq ↔ natKey a.data = natKey b.data :=
  cmpList_eq_iff cmpPair_eq_iff _ _

theorem naturalCompareO_lt_trans {a b c : String}
    (h1 : naturalCompareO a b = .lt) (h2 : naturalCompareO b c = .lt) :
    naturalCompareO a c = .lt :=
  cmpList_lt_trans cmpPair_eq_iff cmpPair_lt_trans h1 h2

theorem naturalCompare_neg (a b : String) :
    naturalCompare a b = -naturalCompare b a := by
  unfold naturalCompare
  rw [naturalCompareO_swap, ordToInt_swap]

-- ─── Reference natural comparison (from the specification's words) ──────────

/-- Reference definition, stated from the specification: digit runs compare
numerically, non-digit runs compare lexicographically by raw code point,
digit runs sort before non-digit runs. -/
def refCmpRun : Run → Run → Ordering
  | Run.num a, Run.num b => cmpNat (digitsVal a) (digitsVal b)
  | Run.num _, Run.str _ => .lt
  | Run.str _, Run.num _ => .gt
  | Run.str a, Run.str b => cmpList cmpNat (a.map Char.toNat) (b.map Char.toNat)

/-- Reference natural comparison, stated from the specification: split each
string into alternating digit/non-digit runs, compare runs left to right,
the first differing run decides, a strict prefix sorts first. -/
def refNaturalCompare (a b : String) : Int :=
  ordToInt (cmpList refCmpRun (splitRuns a.data) (splitRuns b.data))

-- ─── Order predicates and comparator (src/index.js lines 25–34, 68–78) ──────

/-- The rule's first option: sort direction. -/
inductive Order where
  | asc
  | desc
deriving DecidableEq

-- The isValidOrders table (I = insensitive, N = natural).
namespace isValidOrders

def asc (a b : String) : Bool := jsLe a b

def ascI (a b : String) : Bool := jsLe (jsToLower a) (jsToLower b)

def ascN (a b : String) : Bool := decide (naturalCompare a b ≤ 0)

def ascIN (a b : String) : Bool :=
  decide (naturalCompare (jsToLower a) (jsToLower b) ≤ 0)

def desc (a b : String) : Bool := asc b a

def descI (a b : String) : Bool := ascI b a

def descN (a b : String) : Bool := ascN b a

def descIN (a b : String) : Bool := ascIN b a

end isValidOrders

/-- The non-natural three-way base of `makeComparator`:
`na < nb ? -1 : na > nb ? 1 : 0`. -/
def jsCompareInt (a b : String) : Int :=
  if jsLt a b then -1 else if jsLt b a then 1 else 0

/-- `makeComparator(order, caseSensitive, natural)` from src/index.js. -/
def makeComparator (order : Order) (caseSensitive natural : Bool)
    (a b : String) : Int :=
  let normalize : String → String := if caseSensitive then fun s => s else jsToLower
  let direction : Int := if order = Order.desc then -1 else 1
  let na := normalize a
  let nb := normalize b
  if natural then direction * naturalCompare na nb
  else direction * jsCompareInt na nb

theorem jsCompareInt_eq_ordToInt (a b : String) :
    jsCompareInt a b = ordToInt (jsCompare a b) := by
  unfold jsCompareInt jsLt
  rw [jsCompare_swap b a]
  cases jsCompare a b <;> simp [ordToInt, Ordering.swap]

-- ─── Data model: entries, tokens, configuration ─────────────────────────────

/-- ESTree node kind of one element of `node.properties`. -/
inductive EntryType where
  | property
  | spreadElement
  | restElement
deriving DecidableEq

/-- Shape of a `Property` node's `key`. The stringification `String(value)`
of a literal is stored directly; `isSymbol` records whether the literal's
value is symbol-typed. -/
inductive KeyNode where
  | identifier (name : String)
  | literal (value : String) (isSymbol : Bool)
  | expression
deriving DecidableEq

/-- Start/end line numbers (`node.loc`). -/
structure Loc where
  startLine : Nat
  endLine : Nat
deriving DecidableEq

/-- One element of `node.properties`: an immutable view of the
collaborator's AST node with the fields the rule reads. `range` is the
node's source span, `text` is `sourceCode.getText(node)`. -/
structure Entry where
  type : EntryType
  computed : Bool
  key : KeyNode
  loc : Loc
  range : Nat × Nat
  text : String
deriving DecidableEq

/-- A token or comment, as returned by `sourceCode.getTokensBetween` with
`includeComments: true`; only its line numbers are consulted. -/
structure Token where
  startLine : Nat
  endLine : Nat
deriving DecidableEq

/-- The rule's options after defaulting (src/index.js lines 128–135). -/
structure Config where
  order : Order
  allowLineSeparatedGroups : Bool
  caseSensitive : Bool
  ignoreComputedKeys : Bool
  minKeys : Nat
  natural : Bool
deriving DecidableEq

/-- `getPropertyName(node)` (src/index.js lines 45–57): static key name, or
`none` for a dynamic computed key or any other unnamed shape. -/
def getPropertyName (node : Entry) : Option String :=
  if node.computed then
    match node.key with
    | KeyNode.literal v isSym => if isSym then none else some v
    | _ => none
  else
    match node.key with
    | KeyNode.identifier n => some n
    | KeyNode.literal v _ => some v
    | KeyNode.expression => none

/-- The resolved `isValidOrders[orderKey]` lookup, where
`orderKey = order + (insensitive ? "I" : "") + (natural ? "N" : "")`. -/
def isValidOrder (cfg : Config) : String → String → Bool :=
  match cfg.order, !cfg.caseSensitive, cfg.natural with
  | Order.asc, false, false => isValidOrders.asc
  | Order.asc, true, false => isValidOrders.ascI
  | Order.asc, false, true => isValidOrders.ascN
  | Order.asc, true, true => isValidOrders.ascIN
  | Order.desc, false, false => isValidOrders.desc
  | Order.desc, true, false => isValidOrders.descI
  | Order.desc, false, true => isValidOrders.descN
  | Order.desc, true, true => isValidOrders.descIN

/-- `areSorted(names, isValidOrder)` (src/index.js lines 86–93): every
consecutive pair with both names non-null satisfies the predicate. -/
def areSorted (names : List (Option String)) (p : String → String → Bool) : Bool :=
  match names with
  | [] => true
  | [_] => true
  | a :: b :: rest =>
    (match a, b with
     | some x, some y => p x y
     | _, _ => true) && areSorted (b :: rest) p

/-- The scan locating the first out-of-order index
(src/index.js lines 209–215): the running previous name, the remaining
names, and the index of the current element. -/
def firstViolationAux (p : String → String → Bool) :
    Option String → List (Option String) → Nat → Option Nat
  | _, [], _ => none
  | prev, cur :: rest, i =>
    match prev, cur with
    | some a, some b =>
      if p a b then firstViolationAux p cur rest (i + 1) else some i
    | _, _ => firstViolationAux p cur rest (i + 1)

/-- `firstViolationIdx`: initialised to 1, set to the first index `i ≥ 1`
with both `names[i-1]` and `names[i]` non-null and the predicate false. -/
def firstViolationIdx (names : List (Option String))
    (p : String → String → Bool) : Nat :=
  match names with
  | [] => 1
  | n0 :: rest => (firstViolationAux p n0 rest 1).getD 1

-- ─── Group segmenter (src/index.js lines 149–193) ───────────────────────────

/-- `hasBlankLineBetween(nodeA, nodeB)`: build the list of
(end line, start line) pairs — nodeA's end against the first token's start
(or nodeB's start when no tokens), consecutive token pairs, and the last
token's end against nodeB's start — and test whether any gap exceeds one
line. `tb` is the collaborator's `getTokensBetween` query. -/
def hasBlankLineBetween (tb : Entry → Entry → List Token)
    (nodeA nodeB : Entry) : Bool :=
  let tokens := tb nodeA nodeB
  let pairs : List (Nat × Nat) :=
    [(nodeA.loc.endLine,
      match tokens.head? with
      | some t => t.startLine
      | none => nodeB.loc.startLine)]
    ++ ((tokens.zip tokens.tail).map fun q => (q.1.endLine, q.2.startLine))
    ++ (match tokens.getLast? with
        | some t => [(t.endLine, nodeB.loc.startLine)]
        | none => [])
  pairs.any fun q => decide (q.1 + 1 < q.2)

/-- The fold state of `splitIntoGroups`: finished groups and the current
accumulating group. -/
def splitIntoGroupsAux (cfg : Config) (tb : Entry → Entry → List Token) :
    List Entry → List (List Entry) → List Entry → List (List Entry)
  | [], groups, current =>
    if current.isEmpty then groups else groups ++ [current]
  | prop :: rest, groups, current =>
    let isSpread :=
      prop.type = EntryType.spreadElement ∨ prop.type = EntryType.restElement
    let isIgnoredComputed := cfg.ignoreComputedKeys ∧ prop.computed
    if isSpread ∨ isIgnoredComputed then
      if current.isEmpty then splitIntoGroupsAux cfg tb rest groups []
      else splitIntoGroupsAux cfg tb rest (groups ++ [current]) []
    else if cfg.allowLineSeparatedGroups && !current.isEmpty &&
        (match current.getLast? with
         | some lastE => hasBlankLineBetween tb lastE prop
         | none => false) then
      splitIntoGroupsAux cfg tb rest (groups ++ [current]) [prop]
    else
      splitIntoGroupsAux cfg tb rest groups (current ++ [prop])

/-- `splitIntoGroups(properties)` (src/index.js lines 168–193). -/
def splitIntoGroups (cfg : Config) (tb : Entry → Entry → List Token)
    (properties : List Entry) : List (List Entry) :=
  splitIntoGroupsAux cfg tb properties [] []

-- ─── Fix planner (src/index.js lines 220–245) ───────────────────────────────

/-- The comparator passed to `[...group].sort(...)`: null-named entries
compare equal to each other and strictly greater than named entries; two
named entries compare by `makeComparator` on their names. -/
def sortCmp (cfg : Config) (a b : Entry) : Int :=
  match getPropertyName a, getPropertyName b with
  | none, none => 0
  | none, some _ => 1
  | some _, none => -1
  | some na, some nb =>
    makeComparator cfg.order cfg.caseSensitive cfg.natural na nb

/-- Non-positive comparator result, the order underlying the stable sort. -/
def sortRel (cfg : Config) (a b : Entry) : Prop := sortCmp cfg a b ≤ 0

instance (cfg : Config) : DecidableRel (sortRel cfg) :=
  fun a b => Int.decLe _ _

/-- The target order `sorted` of a group: the stable JS `Array.prototype.sort`
modelled by insertion sort under `sortRel`. -/
def sortedGroup (cfg : Config) (g : List Entry) : List Entry :=
  g.insertionSort (sortRel cfg)

/-- One text replacement `(span, replacement text)` handed to the fixer. -/
structure FixEdit where
  range : Nat × Nat
  text : String
deriving DecidableEq

/-- The fix plan (src/index.js lines 238–244): at each position, replace the
original entry's span by the target entry's source text, skipping positions
where original and target are the same entry. -/
def buildFix (group target : List Entry) : List FixEdit :=
  (group.zip target).filterMap fun q =>
    if q.1 = q.2 then none else some ⟨q.1.range, q.2.text⟩

/-- One diagnostic for a violating group: the reported anchor node
`group[firstViolationIdx]` and the fix plan. -/
structure Report where
  anchor : Option Entry
  fixes : List FixEdit
deriving DecidableEq

/-- Analysis of one group inside the `ObjectExpression:exit` visitor
(src/index.js lines 202–246): skip small groups, skip sorted groups,
otherwise report the first violation with the plan. -/
def analyzeGroup (cfg : Config) (g : List Entry) : Option Report :=
  if g.length < cfg.minKeys then none
  else
    let names := g.map getPropertyName
    if areSorted names (isValidOrder cfg) then none
    else
      some
        { anchor := g[firstViolationIdx names (isValidOrder cfg)]?
          fixes := buildFix g (sortedGroup cfg g) }

/-- The whole visitor on one `ObjectExpression` (src/index.js lines
198–247): threshold on the structure, segmentation, one report per
violating group. -/
def analyze (cfg : Config) (tb : Entry → Entry → List Token)
    (properties : List Entry) : List Report :=
  if properties.length < cfg.minKeys then []
  else (splitIntoGroups cfg tb properties).filterMap (analyzeGroup cfg)

-- ─── Comparator algebra ─────────────────────────────────────────────────────

theorem ordNeGt (o : Ordering) : o ≠ .gt ↔ o = .lt ∨ o = .eq := by
  cases o <;> simp

theorem ordIsLE_iff (o : Ordering) : o.isLE = true ↔ o ≠ .gt := by
  cases o <;> simp [Ordering.isLE]

theorem jsCompareInt_antisymm (a b : String) :
    jsCompareInt a b = -jsCompareInt b a := by
  rw [jsCompareInt_eq_ordToInt, jsCompareInt_eq_ordToInt, jsCompare_swap a b,
    ordToInt_swap]

theorem jsCompare_le_trans {a b c : String} (h1 : jsCompare a b ≠ .gt)
    (h2 : jsCompare b c ≠ .gt) : jsCompare a c ≠ .gt := by
  rw [ordNeGt] at h1 h2 ⊢
  rcases h1 with h1 | h1 <;> rcases h2 with h2 | h2
  · exact Or.inl (jsCompare_lt_trans h1 h2)
  · have hbc : b = c := codeUnits_inj ((jsCompare_eq_iff b c).mp h2)
    rw [← hbc]
    exact Or.inl h1
  · have hab : a = b := codeUnits_inj ((jsCompare_eq_iff a b).mp h1)
    rw [hab]
    exact Or.inl h2
  · have hab : a = b := codeUnits_inj ((jsCompare_eq_iff a b).mp h1)
    rw [hab]
    exact Or.inr h2

theorem naturalCompareO_le_trans {a b c : String}
    (h1 : naturalCompareO a b ≠ .gt) (h2 : naturalCompareO b c ≠ .gt) :
    naturalCompareO a c ≠ .gt := by
  rw [ordNeGt] at h1 h2 ⊢
  rcases h1 with h1 | h1 <;> rcases h2 with h2 | h2
  · exact Or.inl (naturalCompareO_lt_trans h1 h2)
  · rw [naturalCompareO_eq_iff] at h2
    have heq : naturalCompareO a c = naturalCompareO a b := by
      unfold naturalCompareO
      rw [h2]
    rw [heq]
    exact Or.inl h1
  · rw [naturalCompareO_eq_iff] at h1
    have heq : naturalCompareO a c = naturalCompareO b c := by
      unfold naturalCompareO
      rw [h1]
    rw [heq]
    exact Or.inl h2
  · rw [naturalCompareO_eq_iff] at h1
    have heq : naturalCompareO a c = naturalCompareO b c := by
      unfold naturalCompareO
      rw [h1]
    rw [heq]
    exact Or.inr h2

theorem jsCompareInt_nonpos_iff (a b : String) :
    jsCompareInt a b ≤ 0 ↔ jsLe a b = true := by
  rw [jsCompareInt_eq_ordToInt, ordToInt_nonpos, jsLe_eq_isLE, ordIsLE_iff]

theorem jsCompareInt_le_trans {a b c : String} (h1 : jsCompareInt a b ≤ 0)
    (h2 : jsCompareInt b c ≤ 0) : jsCompareInt a c ≤ 0 := by
  rw [jsCompareInt_eq_ordToInt, ordToInt_nonpos] at h1 h2 ⊢
  exact jsCompare_le_trans h1 h2

theorem naturalCompare_nonpos_iff (a b : String) :
    naturalCompare a b ≤ 0 ↔ naturalCompareO a b ≠ .gt := by
  unfold naturalCompare
  rw [ordToInt_nonpos]

theorem naturalCompare_le_trans {a b c : String} (h1 : naturalCompare a b ≤ 0)
    (h2 : naturalCompare b c ≤ 0) : naturalCompare a c ≤ 0 := by
  rw [naturalCompare_nonpos_iff] at h1 h2 ⊢
  exact naturalCompareO_le_trans h1 h2

/-- The descending comparator is the ascending comparator with the
operands swapped. -/
theorem makeComparator_desc_eq (cs n : Bool) (a b : String) :
    makeComparator Order.desc cs n a b = makeComparator Order.asc cs n b a := by
  have h1 := naturalCompare_neg a b
  have h2 := jsCompareInt_antisymm a b
  have h3 := naturalCompare_neg (jsToLower a) (jsToLower b)
  have h4 := jsCompareInt_antisymm (jsToLower a) (jsToLower b)
  cases cs <;> cases n <;> simp [makeComparator] <;> omega

theorem makeComparator_antisymm (o : Order) (cs n : Bool) (a b : String) :
    makeComparator o cs n a b = -makeComparator o cs n b a := by
  have h1 := naturalCompare_neg a b
  have h2 := jsCompareInt_antisymm a b
  have h3 := naturalCompare_neg (jsToLower a) (jsToLower b)
  have h4 := jsCompareInt_antisymm (jsToLower a) (jsToLower b)
  cases o <;> cases cs <;> cases n <;> simp [makeComparator] <;> omega

theorem makeComparator_asc_le_trans {cs n : Bool} {a b c : String}
    (h1 : makeComparator Order.asc cs n a b ≤ 0)
    (h2 : makeComparator Order.asc cs n b c ≤ 0) :
    makeComparator Order.asc cs n a c ≤ 0 := by
  cases cs <;> cases n <;> simp [makeComparator] at h1 h2 ⊢
  · exact jsCompareInt_le_trans h1 h2
  · exact naturalCompare_le_trans h1 h2
  · exact jsCompareInt_le_trans h1 h2
  · exact naturalCompare_le_trans h1 h2

theorem makeComparator_le_trans {o : Order} {cs n : Bool} {a b c : String}
    (h1 : makeComparator o cs n a b ≤ 0)
    (h2 : makeComparator o cs n b c ≤ 0) :
    makeComparator o cs n a c ≤ 0 := by
  cases o
  · exact makeComparator_asc_le_trans h1 h2
  · rw [makeComparator_desc_eq] at h1 h2 ⊢
    exact makeComparator_asc_le_trans h2 h1

theorem makeComparator_total (o : Order) (cs n : Bool) (a b : String) :
    makeComparator o cs n a b ≤ 0 ∨ makeComparator o cs n b a ≤ 0 := by
  have h := makeComparator_antisymm o cs n a b
  omega

/-- The resolved boolean predicate accepts a pair exactly when the resolved
three-way comparator is non-positive on it: the detector's predicate and
the planner's sort order agree. -/
theorem makeComparator_nonpos_iff_isValidOrder (cfg : Config) (a b : String) :
    makeComparator cfg.order cfg.caseSensitive cfg.natural a b ≤ 0 ↔
      isValidOrder cfg a b = true := by
  obtain ⟨o, als, cs, ign, mk, n⟩ := cfg
  have h1 := naturalCompare_neg a b
  have h2 := jsCompareInt_antisymm a b
  have h3 := naturalCompare_neg (jsToLower a) (jsToLower b)
  have h4 := jsCompareInt_antisymm (jsToLower a) (jsToLower b)
  have e1 := jsCompareInt_nonpos_iff a b
  have e2 := jsCompareInt_nonpos_iff b a
  have e3 := jsCompareInt_nonpos_iff (jsToLower a) (jsToLower b)
  have e4 := jsCompareInt_nonpos_iff (jsToLower b) (jsToLower a)
  cases o <;> cases cs <;> cases n <;>
    simp [makeComparator, isValidOrder, isValidOrders.asc, isValidOrders.ascI,
      isValidOrders.ascN, isValidOrders.ascIN, isValidOrders.desc,
      isValidOrders.descI, isValidOrders.descN, isValidOrders.descIN]
  all_goals
    ((try rw [← e1]) <;> (try rw [← e2]) <;> (try rw [← e3]) <;>
      (try rw [← e4]) <;> constructor <;> intro <;> omega)

-- ─── The sort order on entries is a total preorder ──────────────────────────

theorem sortCmp_antisymm (cfg : Config) (a b : Entry) :
    sortCmp cfg a b = -sortCmp cfg b a := by
  unfold sortCmp
  cases getPropertyName a <;> cases getPropertyName b <;> simp
  exact makeComparator_antisymm _ _ _ _ _

theorem sortCmp_le_trans {cfg : Config} {a b c : Entry}
    (h1 : sortCmp cfg a b ≤ 0) (h2 : sortCmp cfg b c ≤ 0) :
    sortCmp cfg a c ≤ 0 := by
  unfold sortCmp at h1 h2 ⊢
  revert h1 h2
  generalize getPropertyName a = oa
  generalize getPropertyName b = ob
  generalize getPropertyName c = oc
  intro h1 h2
  rcases oa with _ | na <;> rcases ob with _ | nb <;> rcases oc with _ | nc <;>
    simp at h1 h2 ⊢ <;>
      first
        | omega
        | exact makeComparator_le_trans h1 h2

instance (cfg : Config) : IsTrans Entry (sortRel cfg) :=
  ⟨fun _ _ _ h1 h2 => sortCmp_le_trans h1 h2⟩

instance (cfg : Config) : IsTotal Entry (sortRel cfg) :=
  ⟨fun a b => by
    unfold sortRel
    have h := sortCmp_antisymm cfg a b
    omega⟩

-- ─── Agreement of the collation model with the reference comparison ─────────

theorem cmpNat_self (a : Nat) : cmpNat a a = .eq := (cmpNat_eq_iff a a).mpr rfl

theorem cmpNat_gt_iff (a b : Nat) : cmpNat a b = .gt ↔ b < a := by
  unfold cmpNat
  split_ifs <;> simp <;> omega

theorem cmpPair_same_fst (k x y : Nat) : cmpPair (k, x) (k, y) = cmpNat x y := by
  unfold cmpPair
  rw [cmpNat_self]
  rfl

theorem cmpPair_lt_of_fst_lt {e f : Nat × Nat} (h : e.1 < f.1) :
    cmpPair e f = .lt := by
  unfold cmpPair
  rw [(cmpNat_lt_iff e.1 f.1).mpr h]
  rfl

theorem cmpPair_gt_of_fst_gt {e f : Nat × Nat} (h : f.1 < e.1) :
    cmpPair e f = .gt := by
  unfold cmpPair
  rw [(cmpNat_gt_iff e.1 f.1).mpr h]
  rfl

/-- Comparing two keys that agree up to a separator element smaller than
every element of the leading parts decomposes into comparing the leading
parts and then the tails. -/
theorem cmpList_append_sep :
    ∀ (x y u v : List (Nat × Nat)),
      (∀ e ∈ x, 1 ≤ e.1) → (∀ e ∈ y, 1 ≤ e.1) →
      cmpList cmpPair (x ++ (0, 0) :: u) (y ++ (0, 0) :: v) =
        (cmpList cmpPair x y).then (cmpList cmpPair u v)
  | [], [], u, v, _, _ => by
    simp only [List.nil_append, cmpList, cmpPair_same_fst, cmpNat_self]
  | [], f :: y', u, v, _, hy => by
    simp only [List.nil_append, List.cons_append, cmpList]
    rw [cmpPair_lt_of_fst_lt (by have := hy f (by simp); simpa using this)]
    rfl
  | e :: x', [], u, v, hx, _ => by
    simp only [List.nil_append, List.cons_append, cmpList]
    rw [cmpPair_gt_of_fst_gt (by have := hx e (by simp); simpa using this)]
    rfl
  | e :: x', f :: y', u, v, hx, hy => by
    simp only [List.cons_append, cmpList, List.append_eq]
    rw [cmpList_append_sep x' y' u v (fun a ha => hx a (by simp [ha]))
      (fun a ha => hy a (by simp [ha])), ordThen_assoc]

theorem toLower_eq_self {c : Char} (h : isAsciiUpper c = false) :
    Char.toLower c = c := by
  have hn : ¬(c.toNat ≥ 65 ∧ c.toNat ≤ 90) := by
    simp [isAsciiUpper] at h
    omega
  simp [Char.toLower, hn]

/-- Punctuation ranks live outside the alphanumeric ASCII code ranges. -/
theorem asciiPunctRank_none {n : Nat}
    (h : (48 ≤ n ∧ n ≤ 57) ∨ (65 ≤ n ∧ n ≤ 90) ∨ (97 ≤ n ∧ n ≤ 122)) :
    asciiPunctRank n = none := by
  have hnm : n ∉ punctCodes := by
    intro hmem
    simp only [punctCodes, List.mem_cons, List.not_mem_nil, or_false] at hmem
    omega
  simp [asciiPunctRank, hnm]

/-- On lowercase letters and digits the primary element is the raw code
point under the letter tag. -/
theorem chElem_plain {c : Char} (h : isLowerOrDigit c = true) :
    chElem c = (3, c.toNat) := by
  simp only [isLowerOrDigit, isAsciiLower, isDigitCh, Bool.or_eq_true,
    Bool.and_eq_true, decide_eq_true_eq] at h
  have hu : isAsciiUpper c = false := by
    simp only [isAsciiUpper, Bool.and_eq_false_iff]
    simp only [decide_eq_false_iff_not, not_le]
    omega
  unfold chElem
  rw [asciiPunctRank_none (by omega), toLower_eq_self hu]

/-- Lowercase letters and digits are not uppercase. -/
theorem lowerOrDigit_not_upper {c : Char} (h : isLowerOrDigit c = true) :
    isAsciiUpper c = false := by
  simp only [isLowerOrDigit, isAsciiLower, isDigitCh, Bool.or_eq_true,
    Bool.and_eq_true, decide_eq_true_eq] at h
  simp only [isAsciiUpper, Bool.and_eq_false_iff]
  simp only [decide_eq_false_iff_not, not_le]
  omega

/-- Every character element carries tag 1 or 3. -/
theorem chElem_fst_ge_one (c : Char) : 1 ≤ (chElem c).1 := by
  unfold chElem
  cases asciiPunctRank c.toNat <;> simp

/-- Every primary collation element carries tag 1, 2 or 3. -/
theorem flattenRuns_fst_ge_one : ∀ rs, ∀ e ∈ flattenRuns rs, 1 ≤ e.1
  | [], e, he => by simp [flattenRuns] at he
  | Run.num ds :: rest, e, he => by
    simp only [flattenRuns, List.mem_cons] at he
    rcases he with he | he
    · rw [he]
      exact Nat.le_succ 1
    · exact flattenRuns_fst_ge_one rest e he
  | Run.str cs :: rest, e, he => by
    simp only [flattenRuns, List.mem_append] at he
    rcases he with he | he
    · obtain ⟨c, _, hc⟩ := List.mem_map.mp he
      rw [← hc]
      exact chElem_fst_ge_one c
    · exact flattenRuns_fst_ge_one rest e he

/-- The chars of one run of `splitRuns s` are chars of `s`. -/
def runChars : Run → List Char
  | Run.num ds => ds
  | Run.str cs => cs

/-- `headNotStr rs` holds when `rs` does not begin with a character run. -/
def headNotStr : List Run → Bool
  | Run.str _ :: _ => false
  | _ => true

/-- Well-formedness of a run list as produced by `splitRuns`: character
runs are nonempty and never adjacent (they are maximal). -/
def strRunsOK : List Run → Bool
  | [] => true
  | Run.num _ :: rest => strRunsOK rest
  | Run.str cs :: rest => !cs.isEmpty && headNotStr rest && strRunsOK rest

theorem splitRuns_strOK : ∀ s, strRunsOK (splitRuns s) = true := by
  intro s
  induction s with
  | nil => rfl
  | cons c cs ih =>
    simp only [splitRuns]
    rcases h : splitRuns cs with _ | ⟨r, rest⟩
    · rcases hd : isDigitCh c <;> simp [strRunsOK, headNotStr]
    · rw [h] at ih
      rcases r with ds | ss
      · rcases hd : isDigitCh c <;> simp only [hd, if_true, if_false] <;>
          simpa [strRunsOK, headNotStr] using ih
      · simp only [strRunsOK, Bool.and_eq_true] at ih
        rcases hd : isDigitCh c <;> simp only [hd, if_true, if_false]
        · simp [strRunsOK, ih.1.2, ih.2]
        · simp [strRunsOK, ih.1.1, ih.1.2, ih.2]

/-- A key suffix that does not start with a character run starts below the
letter tag. -/
theorem flatten_head_lt_three {rs : List Run} (h : headNotStr rs = true) :
    ∀ e, (flattenRuns rs).head? = some e → e.1 < 3 := by
  intro e he
  cases rs with
  | nil => simp [flattenRuns] at he
  | cons r rest =>
    cases r with
    | num ds =>
      simp only [flattenRuns, List.head?_cons, Option.some.injEq] at he
      rw [← he]
      exact Nat.lt_succ_self 2
    | str cs => simp [headNotStr] at h

/-- Comparing keys that extend character-element blocks of lowercase
letters and digits decomposes into the block comparison followed by the
tail comparison, provided each tail starts below the letter tag. -/
theorem cmpList_chPrefix :
    ∀ (a b : List Char) (x y : List (Nat × Nat)),
      (∀ c ∈ a, isLowerOrDigit c = true) →
      (∀ c ∈ b, isLowerOrDigit c = true) →
      (∀ e, x.head? = some e → e.1 < 3) →
      (∀ e, y.head? = some e → e.1 < 3) →
      cmpList cmpPair (a.map chElem ++ x) (b.map chElem ++ y) =
        (cmpList cmpPair (a.map chElem) (b.map chElem)).then
          (cmpList cmpPair x y)
  | [], [], x, y, _, _, _, _ => by
    simp only [List.map_nil, List.nil_append, cmpList]
    rfl
  | [], d :: b', x, y, _, hb, hx, _ => by
    cases x with
    | nil =>
      simp only [List.map_nil, List.nil_append, List.map_cons,
        List.cons_append, cmpList]
      rfl
    | cons e x' =>
      simp only [List.map_nil, List.nil_append, List.map_cons,
        List.cons_append, cmpList]
      rw [chElem_plain (hb d (by simp))]
      rw [cmpPair_lt_of_fst_lt (hx e rfl)]
      rfl
  | c :: a', [], x, y, ha, _, _, hy => by
    cases y with
    | nil =>
      simp only [List.map_nil, List.nil_append, List.map_cons,
        List.cons_append, cmpList]
      rfl
    | cons f y' =>
      simp only [List.map_nil, List.nil_append, List.map_cons,
        List.cons_append, cmpList]
      rw [chElem_plain (ha c (by simp))]
      rw [cmpPair_gt_of_fst_gt (hy f rfl)]
      rfl
  | c :: a', d :: b', x, y, ha, hb, hx, hy => by
    simp only [List.map_cons, List.cons_append, cmpList, List.append_eq]
    rw [cmpList_chPrefix a' b' x y (fun z hz => ha z (by simp [hz]))
      (fun z hz => hb z (by simp [hz])) hx hy, ordThen_assoc]

/-- On blocks of lowercase letters and digits the character-element
comparison is the raw code-point comparison. -/
theorem cmpList_chElem_eq_raw :
    ∀ (a b : List Char), (∀ c ∈ a, isLowerOrDigit c = true) →
      (∀ c ∈ b, isLowerOrDigit c = true) →
      cmpList cmpPair (a.map chElem) (b.map chElem) =
        cmpList cmpNat (a.map Char.toNat) (b.map Char.toNat)
  | [], [], _, _ => rfl
  | [], _ :: _, _, _ => rfl
  | _ :: _, [], _, _ => rfl
  | c :: a', d :: b', ha, hb => by
    simp only [List.map_cons, cmpList]
    rw [cmpList_chElem_eq_raw a' b' (fun x hx => ha x (by simp [hx]))
      (fun x hx => hb x (by simp [hx]))]
    congr 1
    rw [chElem_plain (ha c (by simp)), chElem_plain (hb d (by simp))]
    exact cmpPair_same_fst 3 _ _

/-- Concatenating the runs of `splitRuns` recovers the original string. -/
def joinRuns : List Run → List Char
  | [] => []
  | r :: rest => runChars r ++ joinRuns rest

theorem joinRuns_splitRuns : ∀ s, joinRuns (splitRuns s) = s := by
  intro s
  induction s with
  | nil => rfl
  | cons c cs ih =>
    simp only [splitRuns]
    rcases h : splitRuns cs with _ | ⟨r0, rest⟩ <;> rw [h] at ih
    · rcases hd : isDigitCh c <;>
        simp only [hd, if_true, if_false, joinRuns, runChars,
          List.cons_append, List.nil_append, List.append_nil] <;>
        simp only [joinRuns] at ih <;> rw [← ih]
    · rcases r0 with ds | ss <;> rcases hd : isDigitCh c <;>
        simp only [hd, if_true, if_false, joinRuns, runChars,
          List.cons_append, List.nil_append] <;>
        simp only [joinRuns, runChars] at ih <;> rw [← ih]

theorem mem_joinRuns {rs : List Run} {r : Run} (hr : r ∈ rs) {c : Char}
    (hc : c ∈ runChars r) : c ∈ joinRuns rs := by
  induction rs with
  | nil => simp at hr
  | cons r0 rest ih =>
    simp only [joinRuns, List.mem_append]
    rcases List.mem_cons.mp hr with h | h
    · exact Or.inl (h ▸ hc)
    · exact Or.inr (ih h)

theorem splitRuns_chars_mem {s : List Char} {r : Run} (hr : r ∈ splitRuns s)
    {c : Char} (hc : c ∈ runChars r) : c ∈ s := by
  have h := mem_joinRuns hr hc
  rwa [joinRuns_splitRuns] at h

/-- On well-formed run lists drawn from lowercase letters and digits the
primary collation-element comparison coincides with the reference
run-by-run comparison. -/
theorem flatten_cmp_eq_ref :
    ∀ rs ss, strRunsOK rs = true → strRunsOK ss = true →
      (∀ r ∈ rs, ∀ c ∈ runChars r, isLowerOrDigit c = true) →
      (∀ r ∈ ss, ∀ c ∈ runChars r, isLowerOrDigit c = true) →
      cmpList cmpPair (flattenRuns rs) (flattenRuns ss) =
        cmpList refCmpRun rs ss
  | [], [], _, _, _, _ => rfl
  | [], Run.num es :: ss', _, _, _, _ => rfl
  | [], Run.str es :: ss', _, hok2, _, _ => by
    rcases es with _ | ⟨e, es'⟩
    · simp [strRunsOK] at hok2
    · rfl
  | Run.num ds :: rs', [], _, _, _, _ => rfl
  | Run.str ds :: rs', [], hok1, _, _, _ => by
    rcases ds with _ | ⟨d, ds'⟩
    · simp [strRunsOK] at hok1
    · rfl
  | Run.num ds :: rs', Run.num es :: ss', hok1, hok2, h1, h2 => by
    simp only [flattenRuns, cmpList, refCmpRun]
    rw [cmpPair_same_fst,
      flatten_cmp_eq_ref rs' ss' (by simpa [strRunsOK] using hok1)
        (by simpa [strRunsOK] using hok2)
        (fun r hr => h1 r (by simp [hr]))
        (fun r hr => h2 r (by simp [hr]))]
  | Run.num ds :: rs', Run.str es :: ss', _, hok2, _, h2 => by
    rcases es with _ | ⟨e, es'⟩
    · simp [strRunsOK] at hok2
    · have he : chElem e = (3, e.toNat) :=
        chElem_plain (h2 (Run.str (e :: es')) (by simp) e (by simp [runChars]))
      simp only [flattenRuns, List.map_cons, List.cons_append, cmpList, he]
      rw [cmpPair_lt_of_fst_lt (by simp)]
      rfl
  | Run.str ds :: rs', Run.num es :: ss', hok1, _, h1, _ => by
    rcases ds with _ | ⟨d, ds'⟩
    · simp [strRunsOK] at hok1
    · have hd : chElem d = (3, d.toNat) :=
        chElem_plain (h1 (Run.str (d :: ds')) (by simp) d (by simp [runChars]))
      simp only [flattenRuns, List.map_cons, List.cons_append, cmpList, hd]
      rw [cmpPair_gt_of_fst_gt (by simp)]
      rfl
  | Run.str ds :: rs', Run.str es :: ss', hok1, hok2, h1, h2 => by
    simp only [strRunsOK, Bool.and_eq_true] at hok1 hok2
    simp only [flattenRuns]
    rw [cmpList_chPrefix ds es _ _
      (fun c hc => h1 (Run.str ds) (by simp) c hc)
      (fun c hc => h2 (Run.str es) (by simp) c hc)
      (flatten_head_lt_three hok1.1.2)
      (flatten_head_lt_three hok2.1.2)]
    rw [cmpList_chElem_eq_raw ds es
      (fun c hc => h1 (Run.str ds) (by simp) c hc)
      (fun c hc => h2 (Run.str es) (by simp) c hc)]
    rw [flatten_cmp_eq_ref rs' ss' hok1.2 hok2.2
      (fun r hr => h1 r (by simp [hr]))
      (fun r hr => h2 r (by simp [hr]))]
    rfl

/-- The case-level marks recoverable from the primary elements: one mark
per character element in the lowercase range. -/
def lowerMarks : List (Nat × Nat) → List (Nat × Nat)
  | [] => []
  | e :: k =>
    if e.1 = 3 ∧ 97 ≤ e.2 ∧ e.2 ≤ 122 then (3, 1) :: lowerMarks k
    else lowerMarks k

theorem flatten_splitRuns_cons_nondigit {c : Char} (h : isDigitCh c = false)
    (cs : List Char) :
    flattenRuns (splitRuns (c :: cs)) =
      chElem c :: flattenRuns (splitRuns cs) := by
  simp only [splitRuns]
  rcases hs : splitRuns cs with _ | ⟨r, rest⟩
  · simp [h, flattenRuns]
  · cases r <;> simp [h, flattenRuns]

theorem caseBits_eq_lowerMarks :
    ∀ s : List Char, (∀ c ∈ s, isAsciiUpper c = false) →
      caseBits s = lowerMarks (flattenRuns (splitRuns s)) := by
  intro s
  induction s with
  | nil => intro _; rfl
  | cons c cs ih =>
    intro hs
    have hcs : ∀ x ∈ cs, isAsciiUpper x = false :=
      fun x hx => hs x (by simp [hx])
    have hc : isAsciiUpper c = false := hs c (by simp)
    rcases hd : isDigitCh c with _ | _
    · rw [flatten_splitRuns_cons_nondigit hd]
      rcases hl : isAsciiLower c with _ | _
      · have hcond : ¬((chElem c).1 = 3 ∧ 97 ≤ (chElem c).2 ∧ (chElem c).2 ≤ 122) := by
          rcases hp : asciiPunctRank c.toNat with _ | r
          · rw [show chElem c = (3, (Char.toLower c).toNat) by simp [chElem, hp],
              toLower_eq_self hc]
            simp [isAsciiLower] at hl
            simp
            omega
          · rw [show chElem c = (1, r) by simp [chElem, hp]]
            simp
        simp only [caseBits, hc, hl, if_false, lowerMarks, hcond]
        exact ih hcs
      · have hcond : (chElem c).1 = 3 ∧ 97 ≤ (chElem c).2 ∧ (chElem c).2 ≤ 122 := by
          rw [chElem_plain (by simp [isLowerOrDigit, hl])]
          simp [isAsciiLower] at hl
          simp
          omega
        simp only [caseBits, hc, hl, if_false, if_true, lowerMarks, hcond]
        rw [ih hcs]
        simp
    · have hnl : isAsciiLower c = false := by
        simp [isDigitCh] at hd
        simp [isAsciiLower]
        omega
      have hcb : caseBits (c :: cs) = caseBits cs := by
        simp [caseBits, hc, hnl]
      rw [hcb, ih hcs]
      simp only [splitRuns]
      rcases h2 : splitRuns cs with _ | ⟨r, rest⟩
      · simp [hd, flattenRuns, lowerMarks]
      · cases r <;> simp [hd, flattenRuns, lowerMarks]

/-- On strings of ASCII lowercase letters and digits the modelled
`localeCompare` agrees with the reference run-based natural comparison:
case folding and the punctuation reordering are the identity there and the
case level never decides. -/
theorem naturalCompare_eq_ref_of_lowerDigit (a b : String)
    (ha : ∀ c ∈ a.data, isLowerOrDigit c = true)
    (hb : ∀ c ∈ b.data, isLowerOrDigit c = true) :
    naturalCompare a b = refNaturalCompare a b := by
  have haU : ∀ c ∈ a.data, isAsciiUpper c = false :=
    fun c hc => lowerOrDigit_not_upper (ha c hc)
  have hbU : ∀ c ∈ b.data, isAsciiUpper c = false :=
    fun c hc => lowerOrDigit_not_upper (hb c hc)
  have hA : ∀ r ∈ splitRuns a.data, ∀ c ∈ runChars r, isLowerOrDigit c = true :=
    fun r hr c hc => ha c (splitRuns_chars_mem hr hc)
  have hB : ∀ r ∈ splitRuns b.data, ∀ c ∈ runChars r, isLowerOrDigit c = true :=
    fun r hr c hc => hb c (splitRuns_chars_mem hr hc)
  have hprim := flatten_cmp_eq_ref (splitRuns a.data) (splitRuns b.data)
    (splitRuns_strOK _) (splitRuns_strOK _) hA hB
  unfold naturalCompare refNaturalCompare naturalCompareO natKey
  rw [cmpList_append_sep _ _ _ _ (flattenRuns_fst_ge_one _)
    (flattenRuns_fst_ge_one _), hprim]
  cases href : cmpList refCmpRun (splitRuns a.data) (splitRuns b.data)
  · rfl
  · have hfl : flattenRuns (splitRuns a.data) = flattenRuns (splitRuns b.data) :=
      (cmpList_eq_iff cmpPair_eq_iff _ _).mp (by rw [hprim, href])
    have hcb : caseBits a.data = caseBits b.data := by
      rw [caseBits_eq_lowerMarks _ haU, caseBits_eq_lowerMarks _ hbU, hfl]
    rw [hcb, (cmpList_eq_iff cmpPair_eq_iff _ _).mpr rfl]
    rfl
  · rfl

-- ─── Detector characterization ──────────────────────────────────────────────

/-- The per-pair test of the detector loop: `true` unless both names are
present and the predicate rejects them. -/
def checkPair (p : String → String → Bool) (a b : Option String) : Bool :=
  match a, b with
  | some x, some y => p x y
  | _, _ => true

/-- `violAtB names p i`: index `i` is an adjacent violation — `i ≥ 1`,
`i` in bounds, both `names[i-1]` and `names[i]` defined, predicate false. -/
def violAtB (names : List (Option String)) (p : String → String → Bool)
    (i : Nat) : Bool :=
  decide (1 ≤ i) && decide (i < names.length) &&
    (match names[i-1]?, names[i]? with
     | some (some a), some (some b) => !(p a b)
     | _, _ => false)

theorem violAtB_ge_one {names : List (Option String)} {p : String → String → Bool}
    {i : Nat} (h : violAtB names p i = true) : 1 ≤ i := by
  unfold violAtB at h
  simp only [Bool.and_eq_true, decide_eq_true_eq] at h
  exact h.1.1

theorem violAtB_lt_length {names : List (Option String)} {p : String → String → Bool}
    {i : Nat} (h : violAtB names p i = true) : i < names.length := by
  unfold violAtB at h
  simp only [Bool.and_eq_true, decide_eq_true_eq] at h
  exact h.1.2

theorem areSorted_cons_cons (a b : Option String) (l : List (Option String))
    (p : String → String → Bool) :
    areSorted (a :: b :: l) p = (checkPair p a b && areSorted (b :: l) p) := by
  cases a <;> cases b <;> rfl

theorem violAtB_one (a b : Option String) (l : List (Option String))
    (p : String → String → Bool) :
    violAtB (a :: b :: l) p 1 = !(checkPair p a b) := by
  have hlen : 1 < (a :: b :: l).length := by simp
  cases a <;> cases b <;> simp [violAtB, checkPair, hlen]

theorem violAtB_cons_succ (x : Option String) (l : List (Option String))
    (p : String → String → Bool) (i : Nat) :
    violAtB (x :: l) p (i + 2) = violAtB l p (i + 1) := by
  unfold violAtB
  have h1 : decide (1 ≤ i + 2) = true := by simp
  have h2 : decide (1 ≤ i + 1) = true := by simp
  have h3 : decide (i + 2 < (x :: l).length) = decide (i + 1 < l.length) := by
    apply decide_eq_decide.mpr
    simp only [List.length_cons]
    omega
  have h4 : (x :: l)[i + 2 - 1]? = l[i + 1 - 1]? := by
    have : i + 2 - 1 = (i + 1 - 1) + 1 := by omega
    rw [this, List.getElem?_cons_succ]
  have h5 : (x :: l)[i + 2]? = l[i + 1]? := by
    rw [List.getElem?_cons_succ]
  rw [h1, h2, h3, h4, h5]

theorem firstViolationAux_cons (p : String → String → Bool)
    (prev c : Option String) (l : List (Option String)) (i : Nat) :
    firstViolationAux p prev (c :: l) i =
      if checkPair p prev c then firstViolationAux p c l (i + 1)
      else some i := by
  cases prev <;> cases c <;> simp [firstViolationAux, checkPair]

theorem areSorted_true_no_viol :
    ∀ (names : List (Option String)) (p : String → String → Bool),
      areSorted names p = true → ∀ i, violAtB names p i = false := by
  intro names
  induction names with
  | nil =>
    intro p _ i
    unfold violAtB
    simp
  | cons a tail ih =>
    cases tail with
    | nil =>
      intro p _ i
      unfold violAtB
      have : ¬(1 ≤ i ∧ i < 1) := by omega
      simp only [List.length_singleton]
      rcases Nat.lt_or_ge i 1 with h | h
      · simp; omega
      · simp; omega
    | cons b rest =>
      intro p h i
      rw [areSorted_cons_cons, Bool.and_eq_true] at h
      match i with
      | 0 => unfold violAtB; simp
      | 1 => rw [violAtB_one, h.1]; rfl
      | j + 2 => rw [violAtB_cons_succ]; exact ih p h.2 (j + 1)

theorem firstViolationAux_spec :
    ∀ (l : List (Option String)) (prev : Option String) (i : Nat)
      (p : String → String → Bool),
      (firstViolationAux p prev l i = none → areSorted (prev :: l) p = true) ∧
      (∀ k, firstViolationAux p prev l i = some k →
        i ≤ k ∧ violAtB (prev :: l) p (k - i + 1) = true ∧
          ∀ j, violAtB (prev :: l) p j = true → k - i + 1 ≤ j) := by
  intro l
  induction l with
  | nil =>
    intro prev i p
    constructor
    · intro _
      rfl
    · intro k hk
      simp [firstViolationAux] at hk
  | cons c l' ih =>
    intro prev i p
    rw [firstViolationAux_cons]
    rcases hcp : checkPair p prev c with _ | _
    · simp only [if_false, Bool.false_eq_true]
      constructor
      · intro h
        simp at h
      · intro k hk
        have hk' : k = i := by simpa using hk.symm
        subst hk'
        have hki : k - k + 1 = 1 := by omega
        refine ⟨Nat.le_refl k, ?_, ?_⟩
        · rw [hki, violAtB_one, hcp]
          rfl
        · intro j hj
          rw [hki]
          exact violAtB_ge_one hj
    · simp only [if_true]
      constructor
      · intro h
        have := (ih c (i + 1) p).1 h
        rw [areSorted_cons_cons, hcp, this]
        rfl
      · intro k hk
        obtain ⟨h1, h2, h3⟩ := (ih c (i + 1) p).2 k hk
        have hge : 1 ≤ k - (i + 1) + 1 := by omega
        have harith : k - i + 1 = (k - (i + 1) + 1 - 1) + 2 := by omega
        refine ⟨by omega, ?_, ?_⟩
        · rw [harith, violAtB_cons_succ]
          have : k - (i + 1) + 1 - 1 + 1 = k - (i + 1) + 1 := by omega
          rw [this]
          exact h2
        · intro j hj
          match j, violAtB_ge_one hj with
          | 1, _ =>
            rw [violAtB_one, hcp] at hj
            simp at hj
          | m + 2, _ =>
            rw [violAtB_cons_succ] at hj
            have := h3 (m + 1) hj
            omega

theorem firstViolationIdx_spec {names : List (Option String)}
    {p : String → String → Bool} (h : areSorted names p = false) :
    violAtB names p (firstViolationIdx names p) = true ∧
      ∀ j, violAtB names p j = true → firstViolationIdx names p ≤ j := by
  cases names with
  | nil => simp [areSorted] at h
  | cons n0 rest =>
    simp only [firstViolationIdx]
    cases hk : firstViolationAux p n0 rest 1 with
    | none =>
      have := (firstViolationAux_spec rest n0 1 p).1 hk
      rw [this] at h
      simp at h
    | some k =>
      obtain ⟨h1, h2, h3⟩ := (firstViolationAux_spec rest n0 1 p).2 k hk
      simp only [Option.getD_some]
      have hkk : k - 1 + 1 = k := by omega
      rw [hkk] at h2 h3
      exact ⟨h2, h3⟩

-- ─── Concrete entries and configurations for evaluations ────────────────────

/-- Default configuration: ascending, case-sensitive, not natural,
`minKeys` 2, no blank-line groups, computed keys not ignored. -/
def cfgDefault : Config :=
  { order := Order.asc, allowLineSeparatedGroups := false,
    caseSensitive := true, ignoreComputedKeys := false, minKeys := 2,
    natural := false }

/-- Default configuration with `ignoreComputedKeys` enabled. -/
def cfgIgnoreComputed : Config :=
  { order := Order.asc, allowLineSeparatedGroups := false,
    caseSensitive := true, ignoreComputedKeys := true, minKeys := 2,
    natural := false }

/-- A token query returning no tokens between any two entries. -/
def tbEmpty : Entry → Entry → List Token := fun _ _ => []

/-- `foo: 1` — a plain property. -/
def entryFoo : Entry :=
  { type := EntryType.property, computed := false,
    key := KeyNode.identifier "foo", loc := ⟨1, 1⟩, range := (10, 16),
    text := "foo: 1" }

/-- `[dynamicExpr]: 1` — a computed property with a dynamic key. -/
def entryDyn : Entry :=
  { type := EntryType.property, computed := true,
    key := KeyNode.expression, loc := ⟨2, 2⟩, range := (20, 36),
    text := "[dynamicExpr]: 1" }

/-- `bar: 2` — a plain property. -/
def entryBar : Entry :=
  { type := EntryType.property, computed := false,
    key := KeyNode.identifier "bar", loc := ⟨3, 3⟩, range := (40, 46),
    text := "bar: 2" }

/-- `["foo"]: 1` — a computed property whose key is a string literal. -/
def entryFooLit : Entry :=
  { type := EntryType.property, computed := true,
    key := KeyNode.literal "foo" false, loc := ⟨1, 1⟩, range := (2, 12),
    text := "fooLitText" }

/-- `["bar"]: 2` — a computed property whose key is a string literal. -/
def entryBarLit : Entry :=
  { type := EntryType.property, computed := true,
    key := KeyNode.literal "bar" false, loc := ⟨2, 2⟩, range := (16, 26),
    text := "barLitText" }

/-- `a: 1` — a plain property. -/
def entryA : Entry :=
  { type := EntryType.property, computed := false,
    key := KeyNode.identifier "a", loc := ⟨1, 1⟩, range := (50, 54),
    text := "a: 1" }

/-- `c: 3` — a plain property. -/
def entryC : Entry :=
  { type := EntryType.property, computed := false,
    key := KeyNode.identifier "c", loc := ⟨3, 3⟩, range := (60, 64),
    text := "c: 3" }

-- ─── Claim theorems ─────────────────────────────────────────────────────────

/-- C9: for all strings and each case/natural combination the descending
boolean predicate applied to `(a, b)` equals the ascending predicate
applied to `(b, a)`, and the three-way comparator built with order `desc`
returns on `(a, b)` exactly what the `asc` comparator of the same
combination returns on `(b, a)`. -/
theorem C9_descending_is_mirror :
    ∀ a b : String,
      (isValidOrders.desc a b = isValidOrders.asc b a ∧
        isValidOrders.descI a b = isValidOrders.ascI b a ∧
        isValidOrders.descN a b = isValidOrders.ascN b a ∧
        isValidOrders.descIN a b = isValidOrders.ascIN b a) ∧
      ∀ cs n : Bool,
        makeComparator Order.desc cs n a b = makeComparator Order.asc cs n b a :=
  fun a b =>
    ⟨⟨rfl, rfl, rfl, rfl⟩, fun cs n => makeComparator_desc_eq cs n a b⟩

/-- C7 counterexample: the ascending case-sensitive non-natural predicate
is raw code-unit order, not locale-aware order with uppercase precedence —
at `("Z", "a")` the code accepts the pair (code units 90 ≤ 97) while the
locale-aware uppercase-first comparison (the modelled `localeCompare`,
digit-free here) places `"a"` strictly before `"Z"`. -/
theorem C7_counterexample_locale_divergence :
    isValidOrders.asc "Z" "a" = true ∧ naturalCompare "Z" "a" = 1 ∧
      naturalCompare "a" "Z" = -1 ∧ jsCompare "Z" "a" = Ordering.lt := by
  decide

theorem cmpList_append_left {c : α → α → Ordering} (hrefl : ∀ a, c a a = .eq) :
    ∀ (u x y : List α), cmpList c (u ++ x) (u ++ y) = cmpList c x y
  | [], _, _ => rfl
  | a :: u', x, y => by
    simp only [List.cons_append, cmpList, List.append_eq]
    rw [cmpList_append_left hrefl u' x y, hrefl]
    rfl

theorem jsCompare_append_head {p s t : List Char} {c d : Char}
    (h : c.toNat < d.toNat) :
    jsCompare (String.mk (p ++ c :: s)) (String.mk (p ++ d :: t)) =
      Ordering.lt := by
  unfold jsCompare codeUnits
  show cmpList cmpNat ((p ++ c :: s).map Char.toNat)
    ((p ++ d :: t).map Char.toNat) = Ordering.lt
  rw [List.map_append, List.map_append, List.map_cons, List.map_cons,
    cmpList_append_left cmpNat_self]
  show (cmpNat c.toNat d.toNat).then _ = Ordering.lt
  rw [(cmpNat_lt_iff _ _).mpr h]
  rfl

/-- C7 (amended): under ascending case-sensitive non-natural mode the
comparison is raw UTF-16 code-unit order. At the first point of difference
the smaller code unit wins, and every ASCII uppercase letter has a smaller
code unit than every ASCII lowercase letter, so uppercase sorts before its
lowercase counterpart; in particular `Bar, foo` is accepted as sorted and
`foo, Bar` is rejected. (The original claim's assertion that this matches
locale-aware ordering with uppercase precedence is refuted by the
counterexample.) -/
theorem C7_amended_code_unit_order :
    (∀ (p s t : List Char) (c d : Char), c.toNat < d.toNat →
      isValidOrders.asc (String.mk (p ++ c :: s)) (String.mk (p ++ d :: t)) =
          true ∧
        isValidOrders.asc (String.mk (p ++ d :: s)) (String.mk (p ++ c :: t)) =
          false) ∧
    (∀ c d : Char, isAsciiUpper c = true → isAsciiLower d = true →
      c.toNat < d.toNat) ∧
    isValidOrders.asc "Bar" "foo" = true ∧
      isValidOrders.asc "foo" "Bar" = false := by
  refine ⟨?_, ?_, by decide, by decide⟩
  · intro p s t c d h
    have hlt := jsCompare_append_head (p := p) (s := s) (t := t) h
    have hgt : jsCompare (String.mk (p ++ d :: t)) (String.mk (p ++ c :: s)) =
        Ordering.gt := by
      rw [jsCompare_swap, hlt]
      rfl
    have hlt2 := jsCompare_append_head (p := p) (s := t) (t := s) h
    constructor
    · unfold isValidOrders.asc jsLe jsLt
      rw [hgt]
      rfl
    · unfold isValidOrders.asc jsLe jsLt
      rw [hlt2]
      rfl
  · intro c d hc hd
    simp [isAsciiUpper] at hc
    simp [isAsciiLower] at hd
    omega

/-- Witness for C7's amended theorem at `p = [], c = 'B', d = 'b'`:
`B` accepted before `b`, `b` rejected before `B`. -/
theorem C7_amended_code_unit_order_witness :
    isValidOrders.asc (String.mk ([] ++ 'B' :: [])) (String.mk ([] ++ 'b' :: []))
        = true ∧
      isValidOrders.asc (String.mk ([] ++ 'b' :: []))
        (String.mk ([] ++ 'B' :: [])) = false :=
  C7_amended_code_unit_order.1 [] [] [] 'B' 'b' (by decide)

/-- C8 counterexample: the natural comparison primitive does not agree with
the reference definition on all strings — at `("a", "B")` the code-modelled
`localeCompare` case-folds first (`a` before `B`, since primary `a < b`),
while the reference compares raw code points (`B` = 66 before `a` = 97). -/
theorem C8_counterexample_case_folding :
    naturalCompare "a" "B" = -1 ∧ refNaturalCompare "a" "B" = 1 ∧
      naturalCompare "a" "B" ≠ refNaturalCompare "a" "B" := by
  decide

/-- C8 (amended): the natural comparison primitive agrees with the
reference definition (alternating digit/non-digit runs, digit runs
numeric, first differing run decides, strict prefix first) exactly on the
alphanumeric fragment: on every pair of strings of ASCII lowercase letters
and digits, where raw code-point order and ICU root primary order
coincide. Outside that fragment `localeCompare` diverges from the
reference in two ways: it case-folds at the primary level with uppercase
winning primary ties, not raw code-point order (the counterexample at
`("a", "B")`), and it orders ASCII punctuation and symbols before digits
and not by code point (at `("a-b", "a0b")` the primitive yields -1 and
the reference +1, likewise at `("_", "0")`, and at `("~", "a")` the
primitive yields -1 against raw code-point order). The spec's mode
examples hold: `[item1, item2, item10]` is sorted under natural ascending
and rejected under plain lexicographic ascending, `[item1, item10,
item2]` is sorted under plain lexicographic ascending and rejected under
natural ascending. -/
theorem C8_amended_natural_reference :
    (∀ a b : String, (∀ c ∈ a.data, isLowerOrDigit c = true) →
      (∀ c ∈ b.data, isLowerOrDigit c = true) →
      naturalCompare a b = refNaturalCompare a b) ∧
    naturalCompare "a-b" "a0b" = -1 ∧ refNaturalCompare "a-b" "a0b" = 1 ∧
    naturalCompare "_" "0" = -1 ∧ refNaturalCompare "_" "0" = 1 ∧
    naturalCompare "~" "a" = -1 ∧ refNaturalCompare "~" "a" = 1 ∧
    areSorted [some "item1", some "item2", some "item10"]
        isValidOrders.ascN = true ∧
    areSorted [some "item1", some "item10", some "item2"]
        isValidOrders.ascN = false ∧
    areSorted [some "item1", some "item10", some "item2"]
        isValidOrders.asc = true ∧
    areSorted [some "item1", some "item2", some "item10"]
        isValidOrders.asc = false := by
  refine ⟨naturalCompare_eq_ref_of_lowerDigit, ?_⟩
  decide

/-- Witness for C8's amended theorem: agreement evaluated at the
alphanumeric pair `("item2", "item10")`. -/
theorem C8_amended_natural_reference_witness :
    naturalCompare "item2" "item10" = refNaturalCompare "item2" "item10" :=
  C8_amended_natural_reference.1 "item2" "item10" (by decide) (by decide)

/-- C1: code bug, evaluated at the failing input. With
`ignoreComputedKeys` enabled, `splitIntoGroups` tests only `prop.computed`,
so a computed key whose value is a compile-time string literal — which
`getPropertyName` resolves to a static name, and which the README
documents as "always sortable" — still closes the current group and is
discarded: the unsorted object with entries `["foo"]: 1, ["bar"]: 2`
produces no group and no report, and a literal-keyed computed entry
between two plain entries splits them into two groups instead of staying
a sortable member. -/
theorem C1_literal_computed_key_discarded :
    getPropertyName entryFooLit = some "foo" ∧
    getPropertyName entryBarLit = some "bar" ∧
    splitIntoGroups cfgIgnoreComputed tbEmpty [entryFooLit, entryBarLit] = [] ∧
    analyze cfgIgnoreComputed tbEmpty [entryFooLit, entryBarLit] = [] ∧
    splitIntoGroups cfgIgnoreComputed tbEmpty [entryA, entryFooLit, entryC] =
      [[entryA], [entryC]] := by
  refine ⟨rfl, rfl, by decide, by decide, by decide⟩

/-- C5: the detector reports unsorted exactly when some adjacent pair with
both extracted names defined violates the predicate — pairs with an
unsortable side are always skipped and never trigger a report — and in
that case the scan's index is a violating index and the least one
(scanning left to right). -/
theorem C5_detector_characterization :
    ∀ (names : List (Option String)) (p : String → String → Bool),
      (areSorted names p = false ↔ ∃ i, violAtB names p i = true) ∧
      (areSorted names p = false →
        violAtB names p (firstViolationIdx names p) = true ∧
          ∀ j, violAtB names p j = true → firstViolationIdx names p ≤ j) := by
  intro names p
  refine ⟨⟨fun h => ⟨_, (firstViolationIdx_spec h).1⟩, ?_⟩,
    fun h => firstViolationIdx_spec h⟩
  rintro ⟨i, hi⟩
  by_contra hs
  rw [Bool.not_eq_false] at hs
  rw [areSorted_true_no_viol names p hs i] at hi
  simp at hi

/-- Witness for C5 at the unsorted pair `b, a` under ascending
case-sensitive order: the scan lands on index 1 and it is least. -/
theorem C5_detector_characterization_witness :
    violAtB [some "b", some "a"] isValidOrders.asc
        (firstViolationIdx [some "b", some "a"] isValidOrders.asc) = true ∧
      ∀ j, violAtB [some "b", some "a"] isValidOrders.asc j = true →
        firstViolationIdx [some "b", some "a"] isValidOrders.asc ≤ j :=
  (C5_detector_characterization [some "b", some "a"] isValidOrders.asc).2
    (by decide)

/-- C10: whenever a report is emitted for a group there is an index
`i ≥ 1`, in bounds, whose adjacent names are both defined and rejected by
the predicate; the reported anchor is `group[i]` for the least such `i`,
so the scan's fallback initialisation to 1 is only ever reported when
index 1 itself is a violating pair. -/
theorem C10_report_anchor_is_least_violation :
    ∀ (cfg : Config) (g : List Entry) (r : Report),
      analyzeGroup cfg g = some r →
      ∃ i, 1 ≤ i ∧ i < g.length ∧
        violAtB (g.map getPropertyName) (isValidOrder cfg) i = true ∧
        r.anchor = g[i]? ∧
        ∀ j, violAtB (g.map getPropertyName) (isValidOrder cfg) j = true →
          i ≤ j := by
  intro cfg g r h
  unfold analyzeGroup at h
  split at h
  · simp at h
  · dsimp only at h
    split at h
    · simp at h
    · rename_i hs
      simp only [Bool.not_eq_true] at hs
      obtain ⟨hv, hleast⟩ := firstViolationIdx_spec hs
      have hr := Option.some.inj h
      refine ⟨_, violAtB_ge_one hv, ?_, hv, ?_, hleast⟩
      · simpa using violAtB_lt_length hv
      · rw [← hr]

/-- Witness for C10: the group `foo: 1, bar: 2` under the default
configuration reports anchor `bar` at index 1 with the two-replacement
plan. -/
theorem C10_report_anchor_is_least_violation_witness :
    ∃ i, 1 ≤ i ∧ i < ([entryFoo, entryBar] : List Entry).length ∧
      violAtB ([entryFoo, entryBar].map getPropertyName)
        (isValidOrder cfgDefault) i = true ∧
      (Report.mk (some entryBar)
          [⟨(10, 16), "bar: 2"⟩, ⟨(40, 46), "foo: 1"⟩]).anchor =
        ([entryFoo, entryBar] : List Entry)[i]? ∧
      ∀ j, violAtB ([entryFoo, entryBar].map getPropertyName)
        (isValidOrder cfgDefault) j = true → i ≤ j :=
  C10_report_anchor_is_least_violation cfgDefault [entryFoo, entryBar]
    (Report.mk (some entryBar) [⟨(10, 16), "bar: 2"⟩, ⟨(40, 46), "foo: 1"⟩])
    (by decide)

/-- A null-named entry compares strictly greater than any named entry, so
in a `sortRel`-sorted list everything from the first null-named entry on
is null-named. -/
theorem sorted_null_suffix {cfg : Config} :
    ∀ t : List Entry, List.Pairwise (sortRel cfg) t →
      ∀ e ∈ t.dropWhile (fun x => (getPropertyName x).isSome),
        getPropertyName e = none := by
  intro t
  induction t with
  | nil => intro _ e he; simp [List.dropWhile] at he
  | cons a t' ih =>
    intro hp e he
    rw [List.pairwise_cons] at hp
    rw [List.dropWhile_cons] at he
    rcases ha : (getPropertyName a).isSome with _ | _
    · rw [ha] at he
      simp only [Bool.false_eq_true, if_false, List.mem_cons] at he
      have hanone : getPropertyName a = none := by
        cases hx : getPropertyName a with
        | none => rfl
        | some v => rw [hx] at ha; simp at ha
      rcases he with he | he
      · rw [he]
        exact hanone
      · rcases hb : getPropertyName e with _ | nb
        · rfl
        · exfalso
          have hrel := hp.1 e he
          unfold sortRel sortCmp at hrel
          rw [hanone, hb] at hrel
          simp at hrel
    · rw [ha] at he
      simp only [if_true] at he
      exact ih hp.2 e he

/-- C3: for every configuration and group the planner's target order is a
permutation of the group (no entry invented, duplicated or dropped), and
it splits into named entries followed by exactly the null-named entries of
the original group in their original relative order (unsortable entries
sink to the end, stably); in particular `[foo, [dynamicExpr]: 1, bar]`
under default options (`ignoreComputedKeys` off) sorts to
`[bar, foo, [dynamicExpr]: 1]`. -/
theorem C3_planner_stable_permutation :
    (∀ (cfg : Config) (g : List Entry),
      (sortedGroup cfg g).Perm g ∧
      ∃ xs ys, sortedGroup cfg g = xs ++ ys ∧
        (∀ e ∈ xs, (getPropertyName e).isSome = true) ∧
        (∀ e ∈ ys, getPropertyName e = none) ∧
        ys = g.filter fun e => (getPropertyName e).isNone) ∧
    sortedGroup cfgDefault [entryFoo, entryDyn, entryBar] =
      [entryBar, entryFoo, entryDyn] := by
  constructor
  · intro cfg g
    have hperm : (sortedGroup cfg g).Perm g :=
      List.perm_insertionSort (sortRel cfg) g
    refine ⟨hperm, ?_⟩
    have hsorted : List.Pairwise (sortRel cfg) (sortedGroup cfg g) :=
      List.sorted_insertionSort (sortRel cfg) g
    have hnull := sorted_null_suffix (sortedGroup cfg g) hsorted
    refine ⟨(sortedGroup cfg g).takeWhile (fun x => (getPropertyName x).isSome),
      (sortedGroup cfg g).dropWhile (fun x => (getPropertyName x).isSome),
      (List.takeWhile_append_dropWhile _ _).symm,
      fun e he => by simpa using List.mem_takeWhile_imp he, hnull, ?_⟩
    have hcnull : ∀ e ∈ g.filter (fun e => (getPropertyName e).isNone),
        getPropertyName e = none := by
      intro e he
      have h1 := List.of_mem_filter he
      rwa [Option.isNone_iff_eq_none] at h1
    have hcpair : List.Pairwise (sortRel cfg)
        (g.filter fun e => (getPropertyName e).isNone) := by
      apply List.pairwise_of_forall_mem_list
      intro a ha b hb
      unfold sortRel sortCmp
      rw [hcnull a ha, hcnull b hb]
    have hcsub : List.Sublist (g.filter fun e => (getPropertyName e).isNone)
        (sortedGroup cfg g) :=
      List.sublist_insertionSort hcpair (List.filter_sublist g)
    have hxs_filter : ((sortedGroup cfg g).takeWhile
        (fun x => (getPropertyName x).isSome)).filter
        (fun e => (getPropertyName e).isNone) = [] := by
      rw [List.filter_eq_nil_iff]
      intro e he
      have h1 := List.mem_takeWhile_imp he
      cases hx : getPropertyName e with
      | none => rw [hx] at h1; simp at h1
      | some v => simp [hx]
    have hys_filter : ((sortedGroup cfg g).dropWhile
        (fun x => (getPropertyName x).isSome)).filter
        (fun e => (getPropertyName e).isNone) =
        (sortedGroup cfg g).dropWhile (fun x => (getPropertyName x).isSome) := by
      rw [List.filter_eq_self]
      intro e he
      simp [hnull e he]
    have hfil : (sortedGroup cfg g).filter (fun e => (getPropertyName e).isNone) =
        (sortedGroup cfg g).dropWhile (fun x => (getPropertyName x).isSome) := by
      conv_lhs =>
        rw [← List.takeWhile_append_dropWhile
          (fun x => (getPropertyName x).isSome) (sortedGroup cfg g)]
      rw [List.filter_append, hxs_filter, hys_filter, List.nil_append]
    have hcself : ((g.filter fun e => (getPropertyName e).isNone).filter
        fun e => (getPropertyName e).isNone) =
        (g.filter fun e => (getPropertyName e).isNone) := by
      rw [List.filter_eq_self]
      intro e he
      simp [hcnull e he]
    have hsubf : List.Sublist (g.filter fun e => (getPropertyName e).isNone)
        ((sortedGroup cfg g).filter fun e => (getPropertyName e).isNone) := by
      have h2 := List.Sublist.filter (fun e => (getPropertyName e).isNone) hcsub
      rwa [hcself] at h2
    have hlen : ((sortedGroup cfg g).filter
        fun e => (getPropertyName e).isNone).length =
        (g.filter fun e => (getPropertyName e).isNone).length :=
      (hperm.filter fun e => (getPropertyName e).isNone).length_eq
    have hceq : (g.filter fun e => (getPropertyName e).isNone) =
        (sortedGroup cfg g).filter fun e => (getPropertyName e).isNone :=
      hsubf.eq_of_length hlen.symm
    rw [← hfil, ← hceq]
  · decide

/-- In a `sortRel`-sorted entry list every adjacent pair with both names
defined satisfies the resolved boolean predicate, so the detector accepts
it. -/
theorem areSorted_of_pairwise {cfg : Config} :
    ∀ t : List Entry, List.Pairwise (sortRel cfg) t →
      areSorted (t.map getPropertyName) (isValidOrder cfg) = true := by
  intro t
  induction t with
  | nil => intro _; rfl
  | cons a t' ih =>
    intro hp
    rw [List.pairwise_cons] at hp
    cases t' with
    | nil => rfl
    | cons b t'' =>
      rw [List.map_cons, List.map_cons, areSorted_cons_cons]
      have h2 := ih hp.2
      rw [List.map_cons] at h2
      rw [h2, Bool.and_true]
      have hab : sortRel cfg a b := hp.1 b (by simp)
      unfold sortRel sortCmp at hab
      unfold checkPair
      cases hna : getPropertyName a with
      | none => cases hnb : getPropertyName b <;> rfl
      | some na =>
        cases hnb : getPropertyName b with
        | none => rfl
        | some nb =>
          rw [hna, hnb] at hab
          simp only [] at hab
          exact (makeComparator_nonpos_iff_isValidOrder cfg na nb).mp hab

theorem buildFix_self : ∀ t : List Entry, buildFix t t = [] := by
  intro t
  induction t with
  | nil => rfl
  | cons a t' ih =>
    unfold buildFix at ih ⊢
    rw [List.zip_cons_cons, List.filterMap_cons]
    simp only [if_pos rfl]
    exact ih

/-- C2: applying a violating group's fix plan — each original entry's text
replaced by its target entry's source text, so the resulting property list
is exactly the planner's target order — and re-analysing under the same
configuration yields a sorted group, no report, and an empty fix plan. -/
theorem C2_fix_plan_idempotent :
    ∀ (cfg : Config) (g : List Entry),
      areSorted (g.map getPropertyName) (isValidOrder cfg) = false →
      areSorted ((sortedGroup cfg g).map getPropertyName)
          (isValidOrder cfg) = true ∧
        analyzeGroup cfg (sortedGroup cfg g) = none ∧
        buildFix (sortedGroup cfg g) (sortedGroup cfg (sortedGroup cfg g)) =
          [] := by
  intro cfg g hviol
  have hsorted : List.Pairwise (sortRel cfg) (sortedGroup cfg g) :=
    List.sorted_insertionSort (sortRel cfg) g
  have h1 := areSorted_of_pairwise (sortedGroup cfg g) hsorted
  have hfix : sortedGroup cfg (sortedGroup cfg g) = sortedGroup cfg g :=
    List.Sorted.insertionSort_eq hsorted
  refine ⟨h1, ?_, ?_⟩
  · unfold analyzeGroup
    split
    · rfl
    · dsimp only
      rw [if_pos h1]
  · rw [hfix]
    exact buildFix_self _

/-- Witness for C2: the unsorted group `foo: 1, bar: 2` under the default
configuration; its fixed order is sorted, reports nothing, and re-planning
yields no edit. -/
theorem C2_fix_plan_idempotent_witness :
    areSorted ((sortedGroup cfgDefault [entryFoo, entryBar]).map
        getPropertyName) (isValidOrder cfgDefault) = true ∧
      analyzeGroup cfgDefault (sortedGroup cfgDefault [entryFoo, entryBar]) =
        none ∧
      buildFix (sortedGroup cfgDefault [entryFoo, entryBar])
        (sortedGroup cfgDefault (sortedGroup cfgDefault [entryFoo, entryBar]))
        = [] :=
  C2_fix_plan_idempotent cfgDefault [entryFoo, entryBar] (by decide)

/-- Two source spans do not intersect. -/
def rangesDisjoint (r1 r2 : Nat × Nat) : Prop := r1.2 ≤ r2.1 ∨ r2.2 ≤ r1.1

instance : DecidableRel rangesDisjoint :=
  fun r1 r2 => inferInstanceAs (Decidable (_ ∨ _))

theorem pairwise_zip_left {α β} {R : α → α → Prop} :
    ∀ (g : List α) (t : List β), List.Pairwise R g →
      List.Pairwise (fun p q => R p.1 q.1) (g.zip t) := by
  intro g
  induction g with
  | nil => intro t _; simp
  | cons a g' ih =>
    intro t hp
    cases t with
    | nil => simp [List.zip_nil_right]
    | cons b t' =>
      rw [List.pairwise_cons] at hp
      rw [List.zip_cons_cons, List.pairwise_cons]
      exact ⟨fun q hq => hp.1 q.1 (List.of_mem_zip hq).1, ih t' hp.2⟩

theorem pairwise_filterMap_of {α β} {R : α → α → Prop} {S : β → β → Prop}
    (f : α → Option β)
    (hcomp : ∀ a b, R a b → ∀ x, f a = some x → ∀ y, f b = some y → S x y) :
    ∀ l, List.Pairwise R l → List.Pairwise S (l.filterMap f) := by
  intro l
  induction l with
  | nil => intro _; simp
  | cons a l' ih =>
    intro hp
    rw [List.pairwise_cons] at hp
    rw [List.filterMap_cons]
    cases hfa : f a with
    | none => exact ih hp.2
    | some x =>
      rw [List.pairwise_cons]
      refine ⟨?_, ih hp.2⟩
      intro y hy
      obtain ⟨b, hb, hfb⟩ := List.mem_filterMap.mp hy
      exact hcomp a b (hp.1 b hb) x hfa y hfb

theorem buildFix_mem_decompose {g t : List Entry} {f : FixEdit}
    (hf : f ∈ buildFix g t) :
    ∃ q ∈ g.zip t, q.1 ≠ q.2 ∧ f = ⟨q.1.range, q.2.text⟩ := by
  unfold buildFix at hf
  obtain ⟨q, hq, hfq⟩ := List.mem_filterMap.mp hf
  refine ⟨q, hq, ?_⟩
  by_cases he : q.1 = q.2
  · rw [if_pos he] at hfq
    simp at hfq
  · rw [if_neg he] at hfq
    exact ⟨he, (Option.some.inj hfq).symm⟩

/-- C4: when the group's entries occupy pairwise-disjoint non-empty source
spans (each property a distinct slice of the source, as the fixer comment
states), every emitted replacement targets exactly one original entry's
full span, no two emitted spans intersect, and no edit is emitted for a
position whose original and target entries coincide. -/
theorem C4_fix_plan_span_safety :
    ∀ (cfg : Config) (g : List Entry),
      List.Pairwise (fun a b => rangesDisjoint a.range b.range) g →
      (∀ e ∈ g, e.range.1 < e.range.2) →
      (∀ f ∈ buildFix g (sortedGroup cfg g), ∃ e ∈ g, f.range = e.range) ∧
      List.Pairwise (fun f1 f2 => rangesDisjoint f1.range f2.range)
        (buildFix g (sortedGroup cfg g)) ∧
      (∀ i (hi : i < g.length) (hi' : i < (sortedGroup cfg g).length),
        g.get ⟨i, hi⟩ = (sortedGroup cfg g).get ⟨i, hi'⟩ →
        ∀ f ∈ buildFix g (sortedGroup cfg g),
          f.range ≠ (g.get ⟨i, hi⟩).range) := by
  intro cfg g hdisj hne
  refine ⟨?_, ?_, ?_⟩
  · intro f hf
    obtain ⟨q, hq, _, hfq⟩ := buildFix_mem_decompose hf
    exact ⟨q.1, (List.of_mem_zip hq).1, by rw [hfq]⟩
  · apply pairwise_filterMap_of _ ?_ _ (pairwise_zip_left g (sortedGroup cfg g) hdisj)
    intro p q hpq x hx y hy
    by_cases hp1 : p.1 = p.2
    · rw [if_pos hp1] at hx
      simp at hx
    · rw [if_neg hp1] at hx
      by_cases hq1 : q.1 = q.2
      · rw [if_pos hq1] at hy
        simp at hy
      · rw [if_neg hq1] at hy
        rw [← Option.some.inj hx, ← Option.some.inj hy]
        exact hpq
  · intro i hi hi' heq f hf
    have heq2 : g[i] = (sortedGroup cfg g)[i] := heq
    show f.range ≠ (g[i]).range
    unfold buildFix at hf
    obtain ⟨q, hq, hfq⟩ := List.mem_filterMap.mp hf
    obtain ⟨j, hj, hgetq⟩ := List.mem_iff_getElem.mp hq
    have hjg : j < g.length := List.lt_length_left_of_zip hj
    have hjt : j < (sortedGroup cfg g).length := List.lt_length_right_of_zip hj
    have hzip : (g.zip (sortedGroup cfg g))[j] =
        (g[j], (sortedGroup cfg g)[j]) := List.getElem_zip
    rw [hzip] at hgetq
    by_cases hne2 : q.1 = q.2
    · rw [if_pos hne2] at hfq
      simp at hfq
    · rw [if_neg hne2] at hfq
      have hfr : f.range = q.1.range := by
        rw [← Option.some.inj hfq]
      by_cases hij : j = i
      · subst hij
        rw [← hgetq] at hne2
        exact absurd heq2 (by simpa using hne2)
      · have hdij : rangesDisjoint ((g[j]).range) ((g[i]).range) := by
          rcases Nat.lt_or_ge j i with hlt | hge
          · exact List.pairwise_iff_getElem.mp hdisj j i hjg hi hlt
          · have hlt2 : i < j := by omega
            rcases List.pairwise_iff_getElem.mp hdisj i j hi hjg hlt2 with h | h
            · exact Or.inr h
            · exact Or.inl h
        have hq1 : q.1 = g[j] := by rw [← hgetq]
        rw [hfr, hq1]
        intro hcontra
        have hnej := hne (g[j]) (List.getElem_mem hjg)
        have hnei := hne (g[i]) (List.getElem_mem hi)
        rw [hcontra] at hdij
        unfold rangesDisjoint at hdij
        omega

/-- Witness for C4 at the group `foo: 1, bar: 2` (spans (10,16) and
(40,46), disjoint and non-empty) under the default configuration. -/
theorem C4_fix_plan_span_safety_witness :
    (∀ f ∈ buildFix [entryFoo, entryBar]
        (sortedGroup cfgDefault [entryFoo, entryBar]),
      ∃ e ∈ ([entryFoo, entryBar] : List Entry), f.range = e.range) ∧
    List.Pairwise (fun f1 f2 => rangesDisjoint f1.range f2.range)
      (buildFix [entryFoo, entryBar]
        (sortedGroup cfgDefault [entryFoo, entryBar])) ∧
    (∀ i (hi : i < ([entryFoo, entryBar] : List Entry).length)
        (hi' : i < (sortedGroup cfgDefault [entryFoo, entryBar]).length),
      ([entryFoo, entryBar] : List Entry).get ⟨i, hi⟩ =
        (sortedGroup cfgDefault [entryFoo, entryBar]).get ⟨i, hi'⟩ →
      ∀ f ∈ buildFix [entryFoo, entryBar]
          (sortedGroup cfgDefault [entryFoo, entryBar]),
        f.range ≠ (([entryFoo, entryBar] : List Entry).get ⟨i, hi⟩).range) :=
  C4_fix_plan_span_safety cfgDefault [entryFoo, entryBar]
    (by decide) (by decide)

-- ─── Blank-line boundary characterization ───────────────────────────────────

/-- Walk the gap between two entries: `true` when any consecutive pair of
line positions (previous end line, next start line) differs by more than
one. -/
def chainGap (e : Nat) : List Token → Nat → Bool
  | [], bs => decide (e + 1 < bs)
  | t :: rest, bs => decide (e + 1 < t.startLine) || chainGap t.endLine rest bs

theorem hasBlankLineBetween_eq_chainGap (tb : Entry → Entry → List Token)
    (a b : Entry) :
    hasBlankLineBetween tb a b =
      chainGap a.loc.endLine (tb a b) b.loc.startLine := by
  unfold hasBlankLineBetween
  generalize tb a b = toks
  generalize a.loc.endLine = e
  generalize b.loc.startLine = bs
  induction toks generalizing e with
  | nil => simp [chainGap]
  | cons t rest ih =>
    cases rest with
    | nil => simp [chainGap, List.any_append]
    | cons u rest' =>
      rw [chainGap, ← ih t.endLine]
      simp [List.any_append, Bool.or_assoc]

/-- Modelled from the spec's wording: the boundary sequence — previous
kept entry, every token or comment in the gap, next candidate entry — as
(start line, end line) positions; a blank line exists where the end line
of one element and the start line of the very next differ by more than
one. -/
def blankLineSpec (tb : Entry → Entry → List Token) (a b : Entry) : Bool :=
  let seq : List (Nat × Nat) :=
    (a.loc.startLine, a.loc.endLine) ::
      ((tb a b).map fun t => (t.startLine, t.endLine)) ++
        [(b.loc.startLine, b.loc.startLine)]
  (seq.zip seq.tail).any fun q => decide (q.1.2 + 1 < q.2.1)

theorem blankLineSpec_eq_chainGap (tb : Entry → Entry → List Token)
    (a b : Entry) :
    blankLineSpec tb a b =
      chainGap a.loc.endLine (tb a b) b.loc.startLine := by
  unfold blankLineSpec
  generalize tb a b = toks
  generalize a.loc.startLine = x
  generalize a.loc.endLine = e
  generalize b.loc.startLine = bs
  induction toks generalizing x e with
  | nil => simp [chainGap]
  | cons t rest ih =>
    rw [chainGap, ← ih t.startLine t.endLine]
    simp only [List.map_cons, List.cons_append, List.tail_cons,
      List.zip_cons_cons, List.any_cons]

/-- C6: with `allowLineSeparatedGroups` enabled and a non-empty current
group, the segmenter closes the current group before adding the next
candidate entry exactly when somewhere in the gap between the previous
kept entry and the candidate — across every token and comment in between
plus the two bounding entries — the end line of one element and the start
line of the very next differ by more than one; the candidate then starts
the new group rather than being discarded. The code's pair construction
coincides with this boundary-sequence reading for every token list. -/
theorem C6_blank_line_closes_group :
    (∀ (cfg : Config) (tb : Entry → Entry → List Token)
      (groups : List (List Entry)) (current : List Entry) (lastE prop : Entry)
      (rest : List Entry),
      cfg.allowLineSeparatedGroups = true →
      current.getLast? = some lastE →
      ¬(prop.type = EntryType.spreadElement ∨ prop.type = EntryType.restElement) →
      ¬(cfg.ignoreComputedKeys = true ∧ prop.computed = true) →
      splitIntoGroupsAux cfg tb (prop :: rest) groups current =
        (if blankLineSpec tb lastE prop
         then splitIntoGroupsAux cfg tb rest (groups ++ [current]) [prop]
         else splitIntoGroupsAux cfg tb rest groups (current ++ [prop]))) ∧
    ∀ (tb : Entry → Entry → List Token) (a b : Entry),
      hasBlankLineBetween tb a b = blankLineSpec tb a b := by
  have hespec : ∀ (tb : Entry → Entry → List Token) (a b : Entry),
      hasBlankLineBetween tb a b = blankLineSpec tb a b := by
    intro tb a b
    rw [hasBlankLineBetween_eq_chainGap, blankLineSpec_eq_chainGap]
  refine ⟨?_, hespec⟩
  intro cfg tb groups current lastE prop rest hallow hlast hspread hign
  have hne : current.isEmpty = false := by
    cases current with
    | nil => simp at hlast
    | cons x xs => rfl
  rw [splitIntoGroupsAux]
  rw [if_neg (not_or.mpr ⟨hspread, hign⟩)]
  rw [hallow, hne, hlast]
  simp only [Bool.not_false, Bool.true_and, Bool.and_true]
  rw [hespec tb lastE prop]

/-- Default configuration with `allowLineSeparatedGroups` enabled. -/
def cfgLineGroups : Config :=
  { order := Order.asc, allowLineSeparatedGroups := true,
    caseSensitive := true, ignoreComputedKeys := false, minKeys := 2,
    natural := false }

/-- Witness for C6: one segmentation step on `foo: 1` (ending line 1) and
candidate `bar: 2` (starting line 3, a blank line between, no tokens in
the gap). -/
theorem C6_blank_line_closes_group_witness :
    splitIntoGroupsAux cfgLineGroups tbEmpty [entryBar] [] [entryFoo] =
      (if blankLineSpec tbEmpty entryFoo entryBar
       then splitIntoGroupsAux cfgLineGroups tbEmpty [] ([] ++ [[entryFoo]])
         [entryBar]
       else splitIntoGroupsAux cfgLineGroups tbEmpty [] []
         ([entryFoo] ++ [entryBar])) :=
  C6_blank_line_closes_group.1 cfgLineGroups tbEmpty [] [entryFoo] entryFoo
    entryBar [] rfl rfl (by decide) (by decide)

/-- Witness for C3: the general part evaluated at the default
configuration and the group `foo, [dynamicExpr]: 1, bar`. -/
theorem C3_planner_stable_permutation_witness :
    (sortedGroup cfgDefault [entryFoo, entryDyn, entryBar]).Perm
        [entryFoo, entryDyn, entryBar] ∧
      ∃ xs ys, sortedGroup cfgDefault [entryFoo, entryDyn, entryBar] =
          xs ++ ys ∧
        (∀ e ∈ xs, (getPropertyName e).isSome = true) ∧
        (∀ e ∈ ys, getPropertyName e = none) ∧
        ys = [entryFoo, entryDyn, entryBar].filter
          fun e => (getPropertyName e).isNone :=
  C3_planner_stable_permutation.1 cfgDefault [entryFoo, entryDyn, entryBar]
